import Mathlib

/-
Verification of the JSON response handling layer of the prompt-test-agent
repository (src/cua_tools.py, src/cua_agent.py) against its natural-language
specification.

The Python code under study is the response cleanup-and-parse performed by
`generate_functional_tests` / `generate_nfr_tests` (cua_tools.py lines
1385-1397 and 1510-1526), the result combination of `generate_all_tests`
(cua_agent.py lines 62-137), and `sanitize_code` (cua_tools.py lines 269-272).
Strings are modelled as `List Char`; decoded JSON strings are modelled as
lists of Unicode code points (`List Nat`), matching Python `str` semantics
(including surrogates produced by `\uXXXX` escapes).
-/

namespace PTA

/-- Character constant: the double quote, code point 34. -/
def quoteC : Char := Char.ofNat 34

/-- Character constant: the backslash, code point 92. -/
def bslash : Char := Char.ofNat 92

/-- Character constant: the opening curly brace, code point 123. -/
def braceL : Char := Char.ofNat 123

/-- Character constant: the closing curly brace, code point 125. -/
def braceR : Char := Char.ofNat 125

/-- Character constant: the opening square bracket, code point 91. -/
def brackL : Char := Char.ofNat 91

/-- Character constant: the closing square bracket, code point 93. -/
def brackR : Char := Char.ofNat 93

/-- Character constant: the single quote (apostrophe), code point 39. -/
def apos : Char := Char.ofNat 39

/-- Character constant: the backtick, code point 96. -/
def btick : Char := Char.ofNat 96

/-- JSON whitespace, as skipped by Python's `json` module
(the regex `[ \t\n\r]*` in `json/decoder.py`). -/
def jsonWsB (c : Char) : Bool :=
  c = ' ' || c = Char.ofNat 9 || c = Char.ofNat 10 || c = Char.ofNat 13

/-- Whitespace stripped by Python's `str.strip()`: JSON whitespace plus
vertical tab and form feed.  (`str.strip` also strips non-ASCII Unicode
whitespace; those code points never occur in the inputs considered here,
so the embedding restricts to the ASCII whitespace set.) -/
def pyWsB (c : Char) : Bool :=
  jsonWsB c || c = Char.ofNat 11 || c = Char.ofNat 12

/-- Drop JSON whitespace from the front of a string (the `_w(s, idx).end()`
step of Python's `json.decoder`). -/
def skipWs (s : List Char) : List Char := s.dropWhile jsonWsB

/-- Strip JSON whitespace from both ends of a string. -/
def jsonTrim (s : List Char) : List Char :=
  ((s.dropWhile jsonWsB).reverse.dropWhile jsonWsB).reverse

/-- Embedding of Python's `str.strip()` (ASCII whitespace set, see `pyWsB`). -/
def pyStrip (s : List Char) : List Char :=
  ((s.dropWhile pyWsB).reverse.dropWhile pyWsB).reverse

/-- Worker for `replDel`: structural scan implementing Python's
`str.replace(pat, "")` for the nonempty pattern `p :: ps`.  `skip` counts
characters of a previously matched occurrence still to be discarded, so the
recursion is structural on the string. -/
def replSkip (p : Char) (ps : List Char) : Nat → List Char → List Char
  | _, [] => []
  | n + 1, _ :: t => replSkip p ps n t
  | 0, c :: t =>
    if (p :: ps).isPrefixOf (c :: t) then replSkip p ps ps.length t
    else c :: replSkip p ps 0 t

/-- Embedding of Python's `str.replace(pat, "")`: delete every occurrence of
`pat`, scanning left to right without overlap. -/
def replDel (pat s : List Char) : List Char :=
  match pat with
  | [] => s
  | p :: ps => replSkip p ps 0 s

/-- Does `pat` occur as a contiguous substring of `s`? -/
def hasSub (pat : List Char) : List Char → Bool
  | [] => pat.isEmpty
  | c :: t => pat.isPrefixOf (c :: t) || hasSub pat t

/-- JSON values as produced by Python's `json.loads`.  Integer literals
become Python `int` (exact, modelled by `Int`); literals with a fraction or
exponent become Python `float`, modelled symbolically by their sign, integer
digits, fraction digits and optional (sign, digits) exponent, since none of
the verified properties depend on float arithmetic.  `jnan` / `jinf` model
the `NaN` / `Infinity` / `-Infinity` constants accepted by `json.loads`.
Object entries keep Python dict semantics: first-occurrence position, last
value for duplicate keys (see `dictify`). -/
inductive Json where
  | jnull : Json
  | jbool : Bool → Json
  | jint : Int → Json
  | jfloat : Bool → List Char → List Char → Option (Bool × List Char) → Json
  | jnan : Json
  | jinf : Bool → Json
  | jstr : List Nat → Json
  | jarr : List Json → Json
  | jobj : List (List Nat × Json) → Json

/-- Python exceptions relevant to the modelled code paths. -/
inductive PyErr where
  | valueError : PyErr
  | attributeError : PyErr
deriving DecidableEq

/-- Numeric value of a list of decimal digit characters. -/
def natOfDigits (l : List Char) : Nat :=
  l.foldl (fun a c => a * 10 + (c.toNat - 48)) 0

/-- Optional leading minus sign of a JSON number. -/
def pnumSign (s : List Char) : Bool × List Char :=
  match s with
  | c :: t => if c = '-' then (true, t) else (false, s)
  | [] => (false, [])

/-- Integer part of a JSON number: `0` or a nonzero digit followed by more
digits (the regex `0|[1-9]\d*`, greedy). -/
def pnumInt (s : List Char) : Option (List Char × List Char) :=
  match s with
  | [] => none
  | c :: t =>
    if c = '0' then some (['0'], t)
    else if c.isDigit then some (c :: t.takeWhile Char.isDigit, t.dropWhile Char.isDigit)
    else none

/-- Optional fraction part `(\.\d+)?`: the dot is consumed only when at
least one digit follows it. -/
def pnumFrac (r1 : List Char) : Option (List Char) × List Char :=
  match r1 with
  | c :: r2 =>
    if c = '.' then
      if (r2.takeWhile Char.isDigit) = [] then (none, r1)
      else (some (r2.takeWhile Char.isDigit), r2.dropWhile Char.isDigit)
    else (none, r1)
  | [] => (none, r1)

/-- Optional sign of an exponent. -/
def pnumExpSign (r3 : List Char) : Bool × List Char :=
  match r3 with
  | d :: r4 => if d = '+' then (false, r4) else if d = '-' then (true, r4) else (false, r3)
  | [] => (false, r3)

/-- Optional exponent part `([eE][-+]?\d+)?`: the marker is consumed only
when at least one digit follows (after the optional sign). -/
def pnumExp (r2 : List Char) : Option (Bool × List Char) × List Char :=
  match r2 with
  | c :: r3 =>
    if c = 'e' || c = 'E' then
      if ((pnumExpSign r3).2.takeWhile Char.isDigit) = [] then (none, r2)
      else (some ((pnumExpSign r3).1, (pnumExpSign r3).2.takeWhile Char.isDigit),
        (pnumExpSign r3).2.dropWhile Char.isDigit)
    else (none, r2)
  | [] => (none, r2)

/-- Parse a JSON number at the head of `s`, mirroring the regex
`(-?(?:0|[1-9]\d+|[1-9]))(\.\d+)?([eE][-+]?\d+)?` of `json/decoder.py`
(greedy match): an integer literal becomes a Python `int`, anything with a
fraction or exponent becomes a `float`. -/
def pnum (s : List Char) : Option (Json × List Char) :=
  match pnumInt (pnumSign s).2 with
  | none => none
  | some (ip, r1) =>
    match (pnumFrac r1).1, (pnumExp (pnumFrac r1).2).1 with
    | none, none =>
      some (Json.jint (if (pnumSign s).1 then -(natOfDigits ip : Int)
        else (natOfDigits ip : Int)), (pnumExp (pnumFrac r1).2).2)
    | f, e =>
      some (Json.jfloat (pnumSign s).1 ip (f.getD []) e, (pnumExp (pnumFrac r1).2).2)

/-- Hexadecimal value of one character, or `none`. -/
def hexVal (c : Char) : Option Nat :=
  if c.isDigit then some (c.toNat - 48)
  else if 97 ≤ c.toNat && c.toNat ≤ 102 then some (c.toNat - 87)
  else if 65 ≤ c.toNat && c.toNat ≤ 70 then some (c.toNat - 55)
  else none

/-- Parse exactly four hexadecimal digits (the `XXXX` of a `\uXXXX` escape). -/
def phex4 : List Char → Option (Nat × List Char)
  | a :: b :: c :: d :: r =>
    match hexVal a, hexVal b, hexVal c, hexVal d with
    | some x, some y, some z, some w => some (((x * 16 + y) * 16 + z) * 16 + w, r)
    | _, _, _, _ => none
  | _ => none

/-- Parse the body of a JSON string (the opening quote already consumed),
mirroring `py_scanstring` with `strict=True`: unescaped control characters
below 0x20 are rejected, the eight simple escapes are decoded, `\uXXXX`
yields a code unit, and a high surrogate followed by `\u`-escaped low
surrogate is combined into one code point (a lone surrogate is kept as is,
as Python does).  Returns the decoded code points and the rest of the input
after the closing quote. -/
def pstr : Nat → List Char → Option (List Nat × List Char)
  | 0, _ => none
  | _ + 1, [] => none
  | f + 1, c :: t =>
    if c = quoteC then some ([], t)
    else if c.toNat < 32 then none
    else if c = bslash then
      match t with
      | [] => none
      | e :: t2 =>
        if e = quoteC then (pstr f t2).map (fun r => (34 :: r.1, r.2))
        else if e = bslash then (pstr f t2).map (fun r => (92 :: r.1, r.2))
        else if e = '/' then (pstr f t2).map (fun r => (47 :: r.1, r.2))
        else if e = 'b' then (pstr f t2).map (fun r => (8 :: r.1, r.2))
        else if e = 'f' then (pstr f t2).map (fun r => (12 :: r.1, r.2))
        else if e = 'n' then (pstr f t2).map (fun r => (10 :: r.1, r.2))
        else if e = 'r' then (pstr f t2).map (fun r => (13 :: r.1, r.2))
        else if e = 't' then (pstr f t2).map (fun r => (9 :: r.1, r.2))
        else if e = 'u' then
          match phex4 t2 with
          | none => none
          | some (u1, t3) =>
            if 0xD800 ≤ u1 && u1 ≤ 0xDBFF then
              match t3 with
              | b1 :: c2 :: t4 =>
                if b1 = bslash && c2 = 'u' then
                  match phex4 t4 with
                  | some (u2, t5) =>
                    if 0xDC00 ≤ u2 && u2 ≤ 0xDFFF then
                      (pstr f t5).map
                        (fun r => ((0x10000 + (u1 - 0xD800) * 0x400 + (u2 - 0xDC00)) :: r.1, r.2))
                    else (pstr f t3).map (fun r => (u1 :: r.1, r.2))
                  | none => (pstr f t3).map (fun r => (u1 :: r.1, r.2))
                else (pstr f t3).map (fun r => (u1 :: r.1, r.2))
              | _ => (pstr f t3).map (fun r => (u1 :: r.1, r.2))
            else (pstr f t3).map (fun r => (u1 :: r.1, r.2))
        else none
    else (pstr f t).map (fun r => (c.toNat :: r.1, r.2))

/-- Insert one key-value pair with Python dict assignment semantics:
overwrite the value in place if the key is present, else append. -/
def insKV (acc : List (List Nat × Json)) (kv : List Nat × Json) :
    List (List Nat × Json) :=
  match acc with
  | [] => [kv]
  | h :: t => if h.1 = kv.1 then (h.1, kv.2) :: t else h :: insKV t kv

/-- Build the final dict from parsed pairs, as Python's `dict(pairs)` would:
first-occurrence position, last value wins for duplicate keys. -/
def dictify (l : List (List Nat × Json)) : List (List Nat × Json) :=
  l.foldl insKV []

mutual

/-- Parse one JSON value at the head of `s`, mirroring the dispatch of
`json.scanner.py_make_scanner`: string, object, array, `null`, `true`,
`false`, number, `NaN`, `Infinity`, `-Infinity`.  `fuel` bounds recursion
depth; every theorem about the parser is conditional on a successful parse,
so no fuel-sufficiency argument is needed. -/
def pv : Nat → List Char → Option (Json × List Char)
  | 0, _ => none
  | f + 1, s =>
    match s with
    | [] => none
    | c :: t =>
      if c = quoteC then (pstr (t.length + 1) t).map (fun r => (Json.jstr r.1, r.2))
      else if c = braceL then
        match skipWs t with
        | d :: r =>
          if d = braceR then some (Json.jobj [], r)
          else (pmembers f (skipWs t)).map (fun p => (Json.jobj (dictify p.1), p.2))
        | [] => none
      else if c = brackL then
        match skipWs t with
        | d :: r =>
          if d = brackR then some (Json.jarr [], r)
          else (pelems f (skipWs t)).map (fun p => (Json.jarr p.1, p.2))
        | [] => none
      else if c = 't' then
        if ['r', 'u', 'e'].isPrefixOf t then some (Json.jbool true, t.drop 3) else none
      else if c = 'f' then
        if ['a', 'l', 's', 'e'].isPrefixOf t then some (Json.jbool false, t.drop 4) else none
      else if c = 'n' then
        if ['u', 'l', 'l'].isPrefixOf t then some (Json.jnull, t.drop 3) else none
      else if c = 'N' then
        if ['a', 'N'].isPrefixOf t then some (Json.jnan, t.drop 2) else none
      else if c = 'I' then
        if ['n', 'f', 'i', 'n', 'i', 't', 'y'].isPrefixOf t then some (Json.jinf false, t.drop 7)
        else none
      else if c = '-' then
        if ['I', 'n', 'f', 'i', 'n', 'i', 't', 'y'].isPrefixOf t then some (Json.jinf true, t.drop 8)
        else pnum (c :: t)
      else if c.isDigit then pnum (c :: t)
      else none

/-- Parse the members of a JSON object, positioned at a key (whitespace
already skipped); consumes through the closing brace. -/
def pmembers : Nat → List Char → Option (List (List Nat × Json) × List Char)
  | 0, _ => none
  | f + 1, s =>
    match s with
    | [] => none
    | c :: t =>
      if c = quoteC then
        match pstr (t.length + 1) t with
        | none => none
        | some (key, r1) =>
          match skipWs r1 with
          | d :: r2 =>
            if d = ':' then
              match pv f (skipWs r2) with
              | none => none
              | some (v, r3) =>
                match skipWs r3 with
                | e :: r4 =>
                  if e = ',' then
                    (pmembers f (skipWs r4)).map (fun p => ((key, v) :: p.1, p.2))
                  else if e = braceR then some ([(key, v)], r4)
                  else none
                | [] => none
            else none
          | [] => none
      else none

/-- Parse the elements of a JSON array, positioned at an element
(whitespace already skipped); consumes through the closing bracket. -/
def pelems : Nat → List Char → Option (List Json × List Char)
  | 0, _ => none
  | f + 1, s =>
    match pv f s with
    | none => none
    | some (v, r1) =>
      match skipWs r1 with
      | e :: r2 =>
        if e = ',' then (pelems f (skipWs r2)).map (fun p => (v :: p.1, p.2))
        else if e = brackR then some ([v], r2)
        else none
      | [] => none

end

/-- Parse a whole document whose surrounding JSON whitespace has already
been removed: one value which must consume the input exactly. -/
def parseExact (s : List Char) : Option Json :=
  match pv (s.length + 2) s with
  | some (v, r) => if r = [] then some v else none
  | none => none

/-- Embedding of Python's `json.loads`: `JSONDecoder.decode` skips leading
JSON whitespace, parses one value, skips trailing JSON whitespace, and
requires the end of input; equivalently, the value must consume the
whitespace-trimmed input exactly (no JSON value ends or starts with
whitespace, and the grammar's one-character lookahead never extends a value
across whitespace).  Returns `none` where Python raises `JSONDecodeError`. -/
def jsonParse (s : List Char) : Option Json :=
  parseExact (jsonTrim s)

/-- The three-single-quote pattern removed first by the response cleanup. -/
def quote3 : List Char := [apos, apos, apos]

/-- The markdown fence-with-language pattern removed second. -/
def fenceJson : List Char := [btick, btick, btick, 'j', 's', 'o', 'n']

/-- The bare triple-backtick pattern removed third. -/
def btick3 : List Char := [btick, btick, btick]

/-- Embedding of the response cleanup of `generate_functional_tests` /
`generate_nfr_tests` (cua_tools.py line 1388 / 1517):
`raw.replace("'''", "").replace("` + three backticks + `json", "")
.replace("` + three backticks + `", "").strip()`. -/
def cleanResponse (raw : List Char) : List Char :=
  pyStrip (replDel btick3 (replDel fenceJson (replDel quote3 raw)))

/-- The cleanup-and-parse stage shared by `generate_functional_tests` and
`generate_nfr_tests`: clean the raw response, then `json.loads` it. -/
def pipelineParse (raw : List Char) : Option Json :=
  jsonParse (cleanResponse raw)

/-- Code points of a Lean string literal, for JSON object keys. -/
def strCodes (s : String) : List Nat := s.data.map Char.toNat

/-- Lookup in a parsed JSON object. -/
def lookupKV : List (List Nat × Json) → List Nat → Option Json
  | [], _ => none
  | h :: t, k => if h.1 = k then some h.2 else lookupKV t k

/-- Embedding of Python's `dict.get(key, default)`. -/
def pyGet (kvs : List (List Nat × Json)) (k : List Nat) (dflt : Json) : Json :=
  (lookupKV kvs k).getD dflt

/-- Embedding of the parse step of `generate_functional_tests`
(cua_tools.py lines 1392-1397): `json.loads` of the cleaned response inside
`try/except json.JSONDecodeError`; on success
`test_spec.get("functional", [])` is returned, which raises
`AttributeError` when the decoded value is not a dict (only
`JSONDecodeError` is caught); on decode failure the empty list is
returned. -/
def genFunctionalFromRaw (raw : List Char) : Except PyErr Json :=
  match pipelineParse raw with
  | none => .ok (Json.jarr [])
  | some (Json.jobj kvs) => .ok (pyGet kvs (strCodes "functional") (Json.jarr []))
  | some _ => .error .attributeError

/-- Embedding of the parse step of `generate_nfr_tests` (cua_tools.py lines
1521-1526), identical to `genFunctionalFromRaw` except for the key. -/
def genNfrFromRaw (raw : List Char) : Except PyErr Json :=
  match pipelineParse raw with
  | none => .ok (Json.jarr [])
  | some (Json.jobj kvs) => .ok (pyGet kvs (strCodes "nfr") (Json.jarr []))
  | some _ => .error .attributeError

/-- Coercion applied by `generate_all_tests` after the `gather`
(cua_agent.py lines 117-123): a branch whose outcome is an exception is
replaced by the empty list. -/
def branchValue : Except PyErr Json → Json
  | .error _ => Json.jarr []
  | .ok v => v

/-- Coercion applied by `generate_all_tests` (cua_agent.py lines 126-129):
`if not isinstance(x, list): x = []`. -/
def normalizeToList : Json → List Json
  | Json.jarr l => l
  | _ => []

/-- Embedding of the result combination of `generate_all_tests`
(cua_agent.py lines 80-137).  The effectful computations — page access via
`get_interactive_elements` and the two generation branches run by
`asyncio.gather(..., return_exceptions=True)` — are parameters: each is an
outcome, either a raised exception or a returned value (with
`return_exceptions=True` the gather never propagates; it yields each
branch's value or exception independently).  The function models every
control path after those outcomes: page-access failure returns both keys
empty; otherwise each branch is independently defaulted on exception and
coerced to a list. -/
def generateAllTests (pageAccess : Except PyErr (List Json))
    (funcB nfrB : Except PyErr Json) : Json :=
  match pageAccess with
  | .error _ =>
    Json.jobj [(strCodes "functional_tests", Json.jarr []),
               (strCodes "nfr_tests", Json.jarr [])]
  | .ok _ =>
    Json.jobj
      [(strCodes "functional_tests", Json.jarr (normalizeToList (branchValue funcB))),
       (strCodes "nfr_tests", Json.jarr (normalizeToList (branchValue nfrB)))]

/-- A forbidden-operation pattern of cua_tools.py lines 45-58.  Every regex
in `FORBIDDEN_PATTERNS` has the shape `\b` + literal (+ optional trailing
`\b`): the literal part (with `\.` and `\(` unescaped to plain characters),
and whether the pattern ends with a trailing word-boundary assertion. -/
structure FPat where
  lit : List Char
  trailB : Bool

/-- Embedding of `FORBIDDEN_PATTERNS` (cua_tools.py lines 45-58). -/
def FORBIDDEN_PATTERNS : List FPat :=
  [⟨"eval".data, true⟩, ⟨"__import__".data, true⟩, ⟨"open".data, true⟩,
   ⟨"os.".data, false⟩, ⟨"sys.".data, false⟩, ⟨"subprocess".data, true⟩,
   ⟨"importlib".data, true⟩, ⟨"__builtins__".data, true⟩,
   ⟨"globals(".data, false⟩, ⟨"locals(".data, false⟩,
   ⟨"setattr".data, true⟩, ⟨"delattr".data, true⟩]

/-- Regex word character `\w` (ASCII; Python's `\w` also matches non-ASCII
word characters, which do not occur in the inputs considered here). -/
def wordChar (c : Char) : Bool := c.isAlphanum || c = '_'

/-- Case-insensitive literal prefix match (`re.IGNORECASE`: the input is
lowered, the pattern literals are already lowercase). -/
def litPref : List Char → List Char → Bool
  | [], _ => true
  | _ :: _, [] => false
  | l :: ls, c :: cs => (c.toLower = l) && litPref ls cs

/-- Word-boundary test before a match position: start of string, or the
previous character is not a word character (every pattern literal starts
with a word character, so `\b` holds exactly then). -/
def bOK : Option Char → Bool
  | none => true
  | some q => !wordChar q

/-- Trailing word-boundary test after a match (every literal with a
trailing `\b` ends in a word character, so `\b` holds iff the input ended
or continues with a non-word character). -/
def trailOK (p : FPat) (rest : List Char) : Bool :=
  if p.trailB then
    match rest with
    | [] => true
    | r :: _ => !wordChar r
  else true

/-- Embedding of `re.search(pattern, code, re.IGNORECASE)` for one
forbidden pattern: scan every position, tracking the previous character
for the leading word boundary. -/
def searchFrom (p : FPat) : Option Char → List Char → Bool
  | _, [] => false
  | prev, c :: t =>
    (bOK prev && litPref p.lit (c :: t) && trailOK p ((c :: t).drop p.lit.length))
      || searchFrom p (some c) t

/-- Does any forbidden pattern match the code? -/
def matchesAny (code : List Char) : Bool :=
  FORBIDDEN_PATTERNS.any (fun p => searchFrom p none code)

/-- Embedding of `sanitize_code` (cua_tools.py lines 269-272): iterate the
forbidden patterns and raise `ValueError` on the first match, else return
the code unchanged.  The outcome depends only on whether some pattern
matches. -/
def sanitizeCode (code : List Char) : Except PyErr (List Char) :=
  if matchesAny code then .error .valueError else .ok code

/-- Modelled from the spec: the scan state of the Balance Checker
(spec.md section 4.1, `is_balanced`, a function of the repository that is
not under src/): a stack of open delimiters, an in-string flag, and an
escape-pending flag. -/
structure BState where
  stack : List Char
  inString : Bool
  escaped : Bool
deriving DecidableEq

/-- Modelled from the spec: one step of the Balance Checker scan (spec.md
section 4.1).  Inside a string: an escaped character is skipped, a
backslash sets the escape flag, an unescaped quote leaves the string, and
any other character — including braces and brackets — leaves the stack
unchanged.  Outside a string: a quote enters string context, openers are
pushed, closers pop a matching opener or fail (`none`, an unmatched
closer), and all other characters are ignored. -/
def scanStep (st : BState) (c : Char) : Option BState :=
  if st.inString then
    if st.escaped then some ⟨st.stack, true, false⟩
    else if c = bslash then some ⟨st.stack, true, true⟩
    else if c = quoteC then some ⟨st.stack, false, false⟩
    else some ⟨st.stack, true, false⟩
  else if c = quoteC then some ⟨st.stack, true, false⟩
  else if c = braceL || c = brackL then some ⟨c :: st.stack, false, false⟩
  else if c = braceR then
    match st.stack with
    | o :: rest => if o = braceL then some ⟨rest, false, false⟩ else none
    | [] => none
  else if c = brackR then
    match st.stack with
    | o :: rest => if o = brackL then some ⟨rest, false, false⟩ else none
    | [] => none
  else some st

/-- Modelled from the spec: run the Balance Checker scan over a string. -/
def scanAll : BState → List Char → Option BState
  | st, [] => some st
  | st, c :: t =>
    match scanStep st c with
    | none => none
    | some st2 => scanAll st2 t

/-- Modelled from the spec: the Balance Checker `is_balanced` (spec.md
section 4.1, not under src/): scan the string from the initial state;
balanced iff no unmatched closer occurred and the final stack is empty
(the in-string flag is not checked at the end, as the spec notes). -/
def isBalanced (s : List Char) : Bool :=
  match scanAll ⟨[], false, false⟩ s with
  | some st => st.stack.isEmpty
  | none => false

/-- Modelled from the spec: count of unescaped double quotes (a quote not
immediately preceded by a backslash), used by the Structural Completer. -/
def unescQ : Option Char → List Char → Nat
  | _, [] => 0
  | prev, c :: t =>
    (if c = quoteC && !(prev = some bslash : Bool) then 1 else 0) + unescQ (some c) t

/-- Modelled from the spec: the text after the last double quote of the
string (the whole string if it has no quote). -/
def afterLastQ (s : List Char) : List Char :=
  (s.reverse.takeWhile (fun c => !(c = quoteC : Bool))).reverse

/-- Modelled from the spec: does the text following the last quote already
look like the start of a new token (`}`, `]` or `,`, after skipping
whitespace)? -/
def startsNewTok (a : List Char) : Bool :=
  match a.dropWhile jsonWsB with
  | c :: _ => c = braceR || c = brackR || c = ','
  | [] => false

/-- Strip trailing whitespace (Python `str.rstrip()`, ASCII set). -/
def rstripWs (s : List Char) : List Char :=
  (s.reverse.dropWhile pyWsB).reverse

/-- Modelled from the spec: the Structural Completer `complete_json`
(spec.md section 4.2, not under src/).  Steps: (1) naive open-brace and
open-bracket counts (characters inside strings are counted too; a negative
difference appends nothing, like Python string repetition); (2) if the
count of unescaped quotes is odd and the text after the last quote does
not already start a new token, append a closing quote; (3) if the string,
after trimming trailing whitespace, ends in a comma, strip that comma;
(4) append the missing `]` closers, each on its own line, then the missing
`}` closers, each on its own line. -/
def completeJson (s : List Char) : List Char :=
  let openBk := s.count brackL - s.count brackR
  let openBr := s.count braceL - s.count braceR
  let s1 :=
    if unescQ none s % 2 = 1 then
      (if startsNewTok (afterLastQ s) then s else s ++ [quoteC])
    else s
  let t := rstripWs s1
  let s2 := if t.getLast? = some ',' then t.dropLast else s1
  s2 ++ (List.replicate openBk [Char.ofNat 10, brackR]).flatten
     ++ (List.replicate openBr [Char.ofNat 10, braceR]).flatten

/-! Lemmas about the `str.replace(pat, "")` embedding `replDel`. -/

theorem replSkip_skip (p : Char) (ps : List Char) :
    ∀ (t : List Char) (n : Nat), replSkip p ps n t = replSkip p ps 0 (t.drop n) := by
  intro t
  induction t with
  | nil => intro n; cases n <;> rfl
  | cons c t ih =>
    intro n
    cases n with
    | zero => rfl
    | succ m => simpa [replSkip] using ih m

theorem replDel_nil (pat : List Char) : replDel pat [] = [] := by
  cases pat <;> rfl

theorem replDel_cons_eq (p : Char) (ps : List Char) (c : Char) (t : List Char) :
    replDel (p :: ps) (c :: t) =
      if (p :: ps).isPrefixOf (c :: t) then replDel (p :: ps) (t.drop ps.length)
      else c :: replDel (p :: ps) t := by
  show replSkip p ps 0 (c :: t) = _
  rw [replSkip]
  rw [replSkip_skip]
  rfl

/-- A prefix of `x ++ y` no longer than `x` is a prefix of `x`. -/
theorem prefix_of_prefix_append_le {x y p : List Char} (h : p <+: x ++ y)
    (hl : p.length ≤ x.length) : p <+: x :=
  List.prefix_of_prefix_length_le h (List.prefix_append x y) hl

/-- A prefix of `x ++ b` longer than `x` overhangs into `b`: the dropped
part is a prefix of `b`. -/
theorem drop_prefix_of_prefix_append {x b p : List Char} (h : p <+: x ++ b)
    (_hl : x.length < p.length) : p.drop x.length <+: b := by
  rw [List.prefix_iff_eq_take] at h
  have h2 : p.drop x.length = b.take (p.length - x.length) := by
    conv_lhs => rw [h]
    rw [List.drop_take, List.drop_left]
  rw [h2]
  exact List.take_prefix _ _

/-- Transfer of `getLast?` from the tail of a cons. -/
theorem getLast?_cons_of_getLast? {c x : Char} {t : List Char}
    (h : t.getLast? = some x) : (c :: t).getLast? = some x := by
  cases t with
  | nil => simp at h
  | cons d t' => rw [List.getLast?_cons_cons]; exact h

/-- Extraction of a `getLast?` witness from a nonempty list. -/
theorem exists_getLast?_cons (c : Char) (t : List Char) :
    ∃ x, (c :: t).getLast? = some x := by
  cases hgl : (c :: t).getLast? with
  | some x => exact ⟨x, rfl⟩
  | none => rw [List.getLast?_eq_none_iff] at hgl; exact absurd hgl (by simp)

/-- Membership of the `getLast?` witness. -/
theorem mem_of_getLast?_eq {x : Char} {l : List Char} (h : l.getLast? = some x) :
    x ∈ l := by
  have hxm : x ∈ l.getLast? := by rw [h]; rfl
  obtain ⟨hne2, hxe⟩ := List.mem_getLast?_eq_getLast hxm
  exact hxe ▸ List.getLast_mem hne2

/-- Concatenation law for `replDel` when no suffix of the pattern that is
shorter than the pattern is a prefix of `b` (so no occurrence spans the
boundary). -/
theorem replDel_append_of_no_overhang (pat b : List Char) (hne : pat ≠ [])
    (H : ∀ k, k < pat.length → 0 < k → (pat.drop k).isPrefixOf b = false) :
    ∀ s, replDel pat (s ++ b) = replDel pat s ++ replDel pat b := by
  obtain ⟨p, ps, rfl⟩ : ∃ p ps, pat = p :: ps := by
    cases pat with
    | nil => exact absurd rfl hne
    | cons p ps => exact ⟨p, ps, rfl⟩
  suffices h : ∀ n s, s.length ≤ n →
      replDel (p :: ps) (s ++ b) = replDel (p :: ps) s ++ replDel (p :: ps) b by
    intro s; exact h s.length s le_rfl
  intro n
  induction n with
  | zero =>
    intro s hs
    have hnil : s = [] := List.eq_nil_of_length_eq_zero (Nat.le_zero.mp hs)
    subst hnil
    simp [replDel_nil]
  | succ n ih =>
    intro s hs
    cases s with
    | nil => simp [replDel_nil]
    | cons c t =>
      rw [List.cons_append, replDel_cons_eq, replDel_cons_eq]
      by_cases hm : (p :: ps).isPrefixOf (c :: t) = true
      · have hm2 : (p :: ps).isPrefixOf (c :: (t ++ b)) = true := by
          rw [List.isPrefixOf_iff_prefix] at hm ⊢
          exact hm.trans (List.prefix_append (c :: t) b)
        rw [hm2, hm, if_pos rfl, if_pos rfl]
        have hlen : ps.length ≤ t.length := by
          have := (List.isPrefixOf_iff_prefix.mp hm).length_le
          simpa using this
        rw [List.drop_append_eq_append_drop, Nat.sub_eq_zero_of_le hlen, List.drop_zero]
        have ht : (t.drop ps.length).length ≤ n := by
          have h1 : t.length ≤ n := by simpa using hs
          simp only [List.length_drop]
          omega
        exact ih _ ht
      · by_cases hm2 : (p :: ps).isPrefixOf (c :: (t ++ b)) = true
        · exfalso
          have hm2' : (p :: ps) <+: (c :: t) ++ b :=
            List.isPrefixOf_iff_prefix.mp hm2
          have hlt : (c :: t).length < (p :: ps).length := by
            by_contra hle
            push_neg at hle
            have : (p :: ps) <+: (c :: t) := prefix_of_prefix_append_le hm2' hle
            rw [← List.isPrefixOf_iff_prefix] at this
            exact hm this
          have hd : (p :: ps).drop (c :: t).length <+: b :=
            drop_prefix_of_prefix_append hm2' hlt
          rw [← List.isPrefixOf_iff_prefix] at hd
          have := H (c :: t).length hlt (by simp)
          rw [this] at hd
          exact Bool.noConfusion hd
        · rw [if_neg hm2, if_neg hm, List.cons_append]
          have h1 : t.length ≤ n := by simpa using hs
          rw [ih t h1]

/-- Concatenation law for `replDel` with a left block none of whose
characters occurs in the pattern. -/
theorem replDel_block_append (pat : List Char) (hne : pat ≠ [])
    (b : List Char) (hb : ∀ c ∈ b, c ∉ pat) (s : List Char) :
    replDel pat (b ++ s) = b ++ replDel pat s := by
  obtain ⟨p, ps, rfl⟩ : ∃ p ps, pat = p :: ps := by
    cases pat with
    | nil => exact absurd rfl hne
    | cons p ps => exact ⟨p, ps, rfl⟩
  induction b with
  | nil => simp
  | cons c bt ih =>
    have hnp : ¬((p :: ps).isPrefixOf (c :: (bt ++ s)) = true) := by
      intro h
      rw [List.isPrefixOf_iff_prefix] at h
      obtain ⟨w, hw⟩ := h
      have hpc : p = c := by
        have := congrArg List.head? hw
        simpa using this
      exact hb c (List.mem_cons_self c bt) (hpc ▸ List.mem_cons_self p ps)
    rw [List.cons_append, replDel_cons_eq, if_neg hnp]
    rw [ih (fun x hx => hb x (List.mem_cons_of_mem c hx))]
    rfl

/-- Concatenation law for `replDel` when the last character of `s` does
not occur in the pattern (so no occurrence spans the boundary). -/
theorem replDel_append_of_getLast (pat b : List Char) (hne : pat ≠ []) :
    ∀ s, (∀ x, s.getLast? = some x → x ∉ pat) →
      replDel pat (s ++ b) = replDel pat s ++ replDel pat b := by
  obtain ⟨p, ps, rfl⟩ : ∃ p ps, pat = p :: ps := by
    cases pat with
    | nil => exact absurd rfl hne
    | cons p ps => exact ⟨p, ps, rfl⟩
  suffices h : ∀ n s, s.length ≤ n → (∀ x, s.getLast? = some x → x ∉ p :: ps) →
      replDel (p :: ps) (s ++ b) = replDel (p :: ps) s ++ replDel (p :: ps) b by
    intro s; exact h s.length s le_rfl
  intro n
  induction n with
  | zero =>
    intro s hs _
    have hnil : s = [] := List.eq_nil_of_length_eq_zero (Nat.le_zero.mp hs)
    subst hnil
    simp [replDel_nil]
  | succ n ih =>
    intro s hs hlast
    cases s with
    | nil => simp [replDel_nil]
    | cons c t =>
      rw [List.cons_append, replDel_cons_eq, replDel_cons_eq]
      by_cases hm : (p :: ps).isPrefixOf (c :: t) = true
      · have hm2 : (p :: ps).isPrefixOf (c :: (t ++ b)) = true := by
          rw [List.isPrefixOf_iff_prefix] at hm ⊢
          exact hm.trans (List.prefix_append (c :: t) b)
        rw [hm2, hm, if_pos rfl, if_pos rfl]
        have hpre := List.isPrefixOf_iff_prefix.mp hm
        have hlen : ps.length ≤ t.length := by
          have := hpre.length_le
          simpa using this
        rw [List.drop_append_eq_append_drop, Nat.sub_eq_zero_of_le hlen, List.drop_zero]
        by_cases heq : (p :: ps).length = (c :: t).length
        · exfalso
          have hEq : (p :: ps) = (c :: t) := hpre.eq_of_length heq
          obtain ⟨x, hx⟩ := exists_getLast?_cons c t
          exact hlast x hx (hEq ▸ mem_of_getLast?_eq hx)
        · have hlt : ps.length < t.length := by
            simp only [List.length_cons] at heq
            omega
          have hdne : t.drop ps.length ≠ [] := by
            intro hd
            have := congrArg List.length hd
            simp only [List.length_drop, List.length_nil] at this
            omega
          have htr : ∀ x, (t.drop ps.length).getLast? = some x → x ∉ p :: ps := by
            intro x hx
            apply hlast x
            have hsplit : c :: t = (c :: t.take ps.length) ++ t.drop ps.length := by
              rw [List.cons_append, List.take_append_drop]
            rw [hsplit, List.getLast?_append_of_ne_nil _ hdne]
            exact hx
          have ht : (t.drop ps.length).length ≤ n := by
            have h1 : t.length ≤ n := by simpa using hs
            simp only [List.length_drop]
            omega
          exact ih _ ht htr
      · by_cases hm2 : (p :: ps).isPrefixOf (c :: (t ++ b)) = true
        · exfalso
          have hm2' : (p :: ps) <+: (c :: t) ++ b :=
            List.isPrefixOf_iff_prefix.mp hm2
          have hlt : (c :: t).length < (p :: ps).length := by
            by_contra hle
            push_neg at hle
            have : (p :: ps) <+: (c :: t) := prefix_of_prefix_append_le hm2' hle
            rw [← List.isPrefixOf_iff_prefix] at this
            exact hm this
          have hsub : (c :: t) <+: (p :: ps) :=
            List.prefix_of_prefix_length_le (List.prefix_append (c :: t) b) hm2'
              (Nat.le_of_lt hlt)
          obtain ⟨x, hx⟩ := exists_getLast?_cons c t
          exact hlast x hx (hsub.subset (mem_of_getLast?_eq hx))
        · rw [if_neg hm2, if_neg hm, List.cons_append]
          have h1 : t.length ≤ n := by simpa using hs
          have htr : ∀ x, t.getLast? = some x → x ∉ p :: ps := by
            intro x hx
            exact hlast x (getLast?_cons_of_getLast? hx)
          rw [ih t h1 htr]

/-- Deleting a pattern that cannot involve the last character preserves
that last character (and nonemptiness). -/
theorem replDel_getLast (pat : List Char) (hne : pat ≠ []) :
    ∀ s x, s.getLast? = some x → x ∉ pat →
      (replDel pat s).getLast? = some x := by
  obtain ⟨p, ps, rfl⟩ : ∃ p ps, pat = p :: ps := by
    cases pat with
    | nil => exact absurd rfl hne
    | cons p ps => exact ⟨p, ps, rfl⟩
  suffices h : ∀ n s, s.length ≤ n → ∀ x, s.getLast? = some x → x ∉ p :: ps →
      (replDel (p :: ps) s).getLast? = some x by
    intro s; exact h s.length s le_rfl
  intro n
  induction n with
  | zero =>
    intro s hs x hx _
    have hnil : s = [] := List.eq_nil_of_length_eq_zero (Nat.le_zero.mp hs)
    subst hnil
    simp at hx
  | succ n ih =>
    intro s hs x hx hnotin
    cases s with
    | nil => simp at hx
    | cons c t =>
      rw [replDel_cons_eq]
      by_cases hm : (p :: ps).isPrefixOf (c :: t) = true
      · rw [hm, if_pos rfl]
        have hpre := List.isPrefixOf_iff_prefix.mp hm
        have hlen : ps.length ≤ t.length := by
          have := hpre.length_le
          simpa using this
        by_cases heq : (p :: ps).length = (c :: t).length
        · exfalso
          have hEq : (p :: ps) = (c :: t) := hpre.eq_of_length heq
          exact hnotin (hEq ▸ mem_of_getLast?_eq hx)
        · have hlt : ps.length < t.length := by
            simp only [List.length_cons] at heq
            omega
          have hdne : t.drop ps.length ≠ [] := by
            intro hd
            have := congrArg List.length hd
            simp only [List.length_drop, List.length_nil] at this
            omega
          have hx2 : (t.drop ps.length).getLast? = some x := by
            have hsplit : c :: t = (c :: t.take ps.length) ++ t.drop ps.length := by
              rw [List.cons_append, List.take_append_drop]
            rw [hsplit, List.getLast?_append_of_ne_nil _ hdne] at hx
            exact hx
          have ht : (t.drop ps.length).length ≤ n := by
            have h1 : t.length ≤ n := by simpa using hs
            simp only [List.length_drop]
            omega
          exact ih _ ht x hx2 hnotin
      · rw [if_neg hm]
        cases t with
        | nil =>
          have hxc : c = x := by simpa using hx
          subst hxc
          simp [replDel_nil]
        | cons d t' =>
          have hx2 : (d :: t').getLast? = some x := by
            rw [List.getLast?_cons_cons] at hx
            exact hx
          have h1 : (d :: t').length ≤ n := by simpa using hs
          exact getLast?_cons_of_getLast? (ih (d :: t') h1 x hx2 hnotin)

/-- Deleting a pattern that does not occur is the identity. -/
theorem replDel_of_not_hasSub (pat : List Char) :
    ∀ s, hasSub pat s = false → replDel pat s = s := by
  intro s
  induction s with
  | nil => intro _; exact replDel_nil pat
  | cons c t ih =>
    intro h
    rw [hasSub, Bool.or_eq_false_iff] at h
    obtain ⟨h1, h2⟩ := h
    cases pat with
    | nil => rfl
    | cons p ps =>
      rw [replDel_cons_eq, if_neg (by simp [h1]), ih h2]

/-- If a pattern occurs, so does every prefix of it. -/
theorem hasSub_of_prefix (q pat : List Char) (hq : q <+: pat) :
    ∀ s, hasSub pat s = true → hasSub q s = true := by
  intro s
  induction s with
  | nil =>
    intro h
    rw [hasSub] at h ⊢
    have hp : pat = [] := by simpa using h
    subst hp
    have hq2 : q = [] := List.prefix_nil.mp hq
    simp [hq2]
  | cons c t ih =>
    intro h
    rw [hasSub, Bool.or_eq_true] at h ⊢
    cases h with
    | inl h1 =>
      left
      rw [List.isPrefixOf_iff_prefix] at h1 ⊢
      exact hq.trans h1
    | inr h2 => exact Or.inr (ih h2)

/-- Deleting a leading occurrence of the pattern itself. -/
theorem replDel_self_append (pat rest : List Char) (hne : pat ≠ []) :
    replDel pat (pat ++ rest) = replDel pat rest := by
  obtain ⟨p, ps, rfl⟩ : ∃ p ps, pat = p :: ps := by
    cases pat with
    | nil => exact absurd rfl hne
    | cons p ps => exact ⟨p, ps, rfl⟩
  rw [List.cons_append, replDel_cons_eq]
  have hm : (p :: ps).isPrefixOf (p :: (ps ++ rest)) = true := by
    rw [List.isPrefixOf_iff_prefix]
    exact List.prefix_append (p :: ps) rest
  rw [hm, if_pos rfl]
  congr 1
  rw [List.drop_append_eq_append_drop, List.drop_length, Nat.sub_self, List.drop_zero,
    List.nil_append]

/-! Consumed-prefix machinery for the parser: a successful parse of `s`
leaving rest `r` consumed a nonempty prefix; `EndsIn s r d` records that
the consumed prefix ends in the character `d`. -/

/-- The parse of `s` left rest `r` after consuming a nonempty prefix whose
last character is `d`. -/
def EndsIn (s r : List Char) (d : Char) : Prop :=
  ∃ C, s = C ++ r ∧ C ≠ [] ∧ C.getLast? = some d

theorem EndsIn.base (d : Char) (r : List Char) : EndsIn (d :: r) r d :=
  ⟨[d], rfl, by simp, by simp⟩

theorem EndsIn.of_append {C : List Char} (r : List Char) {d : Char}
    (hne : C ≠ []) (hl : C.getLast? = some d) : EndsIn (C ++ r) r d :=
  ⟨C, rfl, hne, hl⟩

theorem EndsIn.trans_eq {s m r : List Char} {d : Char} (X : List Char)
    (hs : s = X ++ m) (h : EndsIn m r d) : EndsIn s r d := by
  obtain ⟨C, hm, hne, hlast⟩ := h
  refine ⟨X ++ C, ?_, ?_, ?_⟩
  · rw [hs, hm, List.append_assoc]
  · intro h0
    exact hne (List.append_eq_nil.mp h0).2
  · rw [List.getLast?_append_of_ne_nil _ hne]
    exact hlast

/-- A nonempty list has a `getLast?` witness. -/
theorem exists_getLast?_ne_nil {l : List Char} (h : l ≠ []) :
    ∃ x, l.getLast? = some x := by
  cases l with
  | nil => exact absurd rfl h
  | cons c t => exact exists_getLast?_cons c t

/-- Extraction from a rest-preserving `Option.map` over pairs. -/
theorem map_pair_eq_some {α β : Type} {o : Option (α × List Char)}
    {gf : α × List Char → β × List Char} {v : β} {rr : List Char}
    (h : o.map gf = some (v, rr)) (hg : ∀ p, (gf p).2 = p.2) :
    ∃ a, o = some (a, rr) := by
  rw [Option.map_eq_some'] at h
  obtain ⟨⟨a, r0⟩, ha, hee⟩ := h
  have h2 : (gf (a, r0)).2 = rr := by rw [hee]
  rw [hg (a, r0)] at h2
  exact ⟨a, h2 ▸ ha⟩

/-- Decomposition of the number sign step. -/
theorem pnumSign_decomp (s : List Char) : ∃ pre, s = pre ++ (pnumSign s).2 := by
  cases s with
  | nil => exact ⟨[], rfl⟩
  | cons c t =>
    by_cases h : c = '-'
    · exact ⟨[c], by simp [pnumSign, h]⟩
    · exact ⟨[], by simp [pnumSign, h]⟩

/-- Decomposition of the integer-part step: the consumed digits are a
nonempty prefix ending in a digit. -/
theorem pnumInt_decomp (s ip r1 : List Char) (h : pnumInt s = some (ip, r1)) :
    s = ip ++ r1 ∧ ip ≠ [] ∧ ∃ d, ip.getLast? = some d ∧ d.isDigit = true := by
  cases s with
  | nil => exact absurd h (by simp [pnumInt])
  | cons c t =>
    rw [pnumInt] at h
    split_ifs at h with h0 hd
    · simp only [Option.some.injEq, Prod.mk.injEq] at h
      obtain ⟨hip, hr1⟩ := h
      subst hip hr1
      exact ⟨by rw [h0]; rfl, by simp, '0', by simp, by decide⟩
    · simp only [Option.some.injEq, Prod.mk.injEq] at h
      obtain ⟨hip, hr1⟩ := h
      subst hip hr1
      refine ⟨?_, by simp, ?_⟩
      · rw [List.cons_append, List.takeWhile_append_dropWhile]
      · cases htw : t.takeWhile Char.isDigit with
        | nil => exact ⟨c, by simp [htw], hd⟩
        | cons a l =>
          obtain ⟨x, hx⟩ := exists_getLast?_cons a l
          refine ⟨x, getLast?_cons_of_getLast? hx, ?_⟩
          have hxm : x ∈ t.takeWhile Char.isDigit := by
            rw [htw]
            exact mem_of_getLast?_eq hx
          exact List.mem_takeWhile_imp hxm

/-- Decomposition of the fraction step: either nothing is consumed, or the
consumed part ends in a digit. -/
theorem pnumFrac_decomp (r1 : List Char) (o : Option (List Char)) (rest : List Char)
    (h : pnumFrac r1 = (o, rest)) :
    (o = none ∧ rest = r1) ∨
    (∃ pre, r1 = pre ++ rest ∧ pre ≠ [] ∧
      ∃ d, pre.getLast? = some d ∧ d.isDigit = true) := by
  cases r1 with
  | nil =>
    rw [pnumFrac] at h
    simp only [Prod.mk.injEq] at h
    exact Or.inl ⟨h.1.symm, h.2.symm⟩
  | cons c r2 =>
    rw [pnumFrac] at h
    split_ifs at h with hdot htw
    · simp only [Prod.mk.injEq] at h
      exact Or.inl ⟨h.1.symm, h.2.symm⟩
    · simp only [Prod.mk.injEq] at h
      obtain ⟨ho, hrest⟩ := h
      right
      refine ⟨c :: r2.takeWhile Char.isDigit, ?_, by simp, ?_⟩
      · rw [← hrest, List.cons_append, List.takeWhile_append_dropWhile]
      · obtain ⟨a, l, hal⟩ : ∃ a l, r2.takeWhile Char.isDigit = a :: l := by
          cases hh : r2.takeWhile Char.isDigit with
          | nil => exact absurd hh htw
          | cons a l => exact ⟨a, l, rfl⟩
        have hgl : ∃ x, (r2.takeWhile Char.isDigit).getLast? = some x := by
          rw [hal]; exact exists_getLast?_cons a l
        obtain ⟨x, hx⟩ := hgl
        refine ⟨x, getLast?_cons_of_getLast? hx, ?_⟩
        exact List.mem_takeWhile_imp (mem_of_getLast?_eq hx)
    · simp only [Prod.mk.injEq] at h
      exact Or.inl ⟨h.1.symm, h.2.symm⟩

/-- Decomposition of the exponent-sign step. -/
theorem pnumExpSign_decomp (r3 : List Char) (sg : Bool) (rest : List Char)
    (h : pnumExpSign r3 = (sg, rest)) : ∃ pre, r3 = pre ++ rest := by
  cases r3 with
  | nil =>
    rw [pnumExpSign] at h
    simp only [Prod.mk.injEq] at h
    exact ⟨[], by rw [← h.2]; rfl⟩
  | cons d r4 =>
    rw [pnumExpSign] at h
    split_ifs at h with h1 h2 <;> simp only [Prod.mk.injEq] at h
    · rw [← h.2]; exact ⟨[d], rfl⟩
    · rw [← h.2]; exact ⟨[d], rfl⟩
    · rw [← h.2]; exact ⟨[], rfl⟩

/-- Decomposition of the exponent step: either nothing is consumed, or the
consumed part ends in a digit. -/
theorem pnumExp_decomp (r2 : List Char) (o : Option (Bool × List Char)) (rest : List Char)
    (h : pnumExp r2 = (o, rest)) :
    (o = none ∧ rest = r2) ∨
    (∃ pre, r2 = pre ++ rest ∧ pre ≠ [] ∧
      ∃ d, pre.getLast? = some d ∧ d.isDigit = true) := by
  cases r2 with
  | nil =>
    rw [pnumExp] at h
    simp only [Prod.mk.injEq] at h
    exact Or.inl ⟨h.1.symm, h.2.symm⟩
  | cons c r3 =>
    obtain ⟨sg, S2, hS⟩ : ∃ a b, pnumExpSign r3 = (a, b) := ⟨_, _, rfl⟩
    have hS2 : (pnumExpSign r3).2 = S2 := by rw [hS]
    rw [pnumExp, hS2] at h
    split_ifs at h with hm htw
    · simp only [Prod.mk.injEq] at h
      exact Or.inl ⟨h.1.symm, h.2.symm⟩
    · simp only [Prod.mk.injEq] at h
      obtain ⟨ho, hrest⟩ := h
      obtain ⟨preS, hpreS⟩ := pnumExpSign_decomp r3 sg S2 hS
      right
      refine ⟨c :: (preS ++ S2.takeWhile Char.isDigit), ?_, by simp, ?_⟩
      · rw [← hrest, hpreS]
        conv_lhs => rw [show S2 = S2.takeWhile Char.isDigit ++ S2.dropWhile Char.isDigit from
          (List.takeWhile_append_dropWhile Char.isDigit S2).symm]
        simp [List.append_assoc]
      · obtain ⟨a, l, hal⟩ : ∃ a l, S2.takeWhile Char.isDigit = a :: l := by
          cases hh : S2.takeWhile Char.isDigit with
          | nil => exact absurd hh htw
          | cons a l => exact ⟨a, l, rfl⟩
        have hgl : ∃ x, (S2.takeWhile Char.isDigit).getLast? = some x := by
          rw [hal]; exact exists_getLast?_cons a l
        obtain ⟨x, hx⟩ := hgl
        have h3 : (preS ++ S2.takeWhile Char.isDigit).getLast? = some x := by
          rw [List.getLast?_append_of_ne_nil _ (by rw [hal]; simp)]
          exact hx
        refine ⟨x, getLast?_cons_of_getLast? h3, ?_⟩
        exact List.mem_takeWhile_imp (mem_of_getLast?_eq hx)
    · simp only [Prod.mk.injEq] at h
      exact Or.inl ⟨h.1.symm, h.2.symm⟩

/-- A successful number parse consumed a nonempty prefix ending in a
digit. -/
theorem pnum_endsIn (s : List Char) (v : Json) (r : List Char)
    (h : pnum s = some (v, r)) : ∃ d, d.isDigit = true ∧ EndsIn s r d := by
  rw [pnum] at h
  split at h
  · exact absurd h (by simp)
  · rename_i ip r1 hInt
    obtain ⟨oF, F2, hF⟩ : ∃ a b, pnumFrac r1 = (a, b) := ⟨_, _, rfl⟩
    obtain ⟨oE, E2, hE⟩ : ∃ a b, pnumExp F2 = (a, b) := ⟨_, _, rfl⟩
    have hF1 : (pnumFrac r1).1 = oF := by rw [hF]
    have hF2 : (pnumFrac r1).2 = F2 := by rw [hF]
    have hE1 : (pnumExp F2).1 = oE := by rw [hE]
    have hE2 : (pnumExp F2).2 = E2 := by rw [hE]
    rw [hF1, hF2, hE1, hE2] at h
    have hr : r = E2 := by
      cases oF <;> cases oE <;>
      · simp only [Option.some.injEq, Prod.mk.injEq] at h
        exact h.2.symm
    rw [hr]
    obtain ⟨pre0, hpre0⟩ := pnumSign_decomp s
    obtain ⟨hs1, hipne, d0, hd0, hd0dig⟩ := pnumInt_decomp _ _ _ hInt
    rcases pnumExp_decomp F2 oE E2 hE with ⟨_, hE2r⟩ | ⟨preE, hpreE, hEne, dE, hdE, hdEdig⟩
    · rcases pnumFrac_decomp r1 oF F2 hF with ⟨_, hF2r⟩ | ⟨preF, hpreF, hFne, dF, hdF, hdFdig⟩
      · refine ⟨d0, hd0dig, ?_⟩
        rw [hE2r, hF2r]
        exact EndsIn.trans_eq pre0 hpre0 (hs1 ▸ EndsIn.of_append r1 hipne hd0)
      · refine ⟨dF, hdFdig, ?_⟩
        rw [hE2r]
        refine EndsIn.trans_eq (pre0 ++ ip) ?_ (EndsIn.of_append _ hFne hdF)
        rw [hpre0, hs1, hpreF, List.append_assoc]
    · refine ⟨dE, hdEdig, ?_⟩
      rcases pnumFrac_decomp r1 oF F2 hF with ⟨_, hF2r⟩ | ⟨preF, hpreF, hFne, dF2, hdF2, hdF2dig⟩
      · refine EndsIn.trans_eq (pre0 ++ ip) ?_ (EndsIn.of_append _ hEne hdE)
        rw [hpre0, hs1, List.append_assoc]
        rw [hF2r] at hpreE
        rw [← hpreE]
      · refine EndsIn.trans_eq (pre0 ++ ip ++ preF) ?_ (EndsIn.of_append _ hEne hdE)
        rw [hpre0, hs1, hpreF, hpreE]
        simp [List.append_assoc]

/-- Shape inversion for `phex4`: four characters were consumed. -/
theorem phex4_shape (s : List Char) (u : Nat) (r : List Char) (h : phex4 s = some (u, r)) :
    ∃ a b c d, s = a :: b :: c :: d :: r := by
  cases s with
  | nil => exact absurd h (by simp [phex4])
  | cons a s1 =>
    cases s1 with
    | nil => exact absurd h (by simp [phex4])
    | cons b s2 =>
      cases s2 with
      | nil => exact absurd h (by simp [phex4])
      | cons c0 s3 =>
        cases s3 with
        | nil => exact absurd h (by simp [phex4])
        | cons d s4 =>
          rw [phex4] at h
          split at h
          · simp only [Option.some.injEq, Prod.mk.injEq] at h
            exact ⟨a, b, c0, d, by rw [h.2]⟩
          · exact absurd h (by simp)

/-- A successful string-body parse consumed a nonempty prefix ending in
the closing quote. -/
theorem pstr_endsIn : ∀ f s cs r, pstr f s = some (cs, r) → EndsIn s r quoteC := by
  intro f
  induction f with
  | zero => intro s cs r h; exact absurd h (by simp [pstr])
  | succ f ih =>
    intro s cs r h
    cases s with
    | nil => exact absurd h (by simp [pstr])
    | cons c t =>
      simp only [pstr] at h
      by_cases h1 : c = quoteC
      · rw [if_pos h1] at h
        simp only [Option.some.injEq, Prod.mk.injEq] at h
        subst h1
        rw [← h.2]
        exact EndsIn.base quoteC t
      · rw [if_neg h1] at h
        by_cases h2 : c.toNat < 32
        · rw [if_pos h2] at h
          exact absurd h (by simp)
        · rw [if_neg h2] at h
          by_cases h3 : c = bslash
          · rw [if_pos h3] at h
            split at h
            · exact absurd h (by simp)
            · rename_i e t2
              by_cases k1 : e = quoteC
              · rw [if_pos k1] at h
                obtain ⟨a, ha⟩ := map_pair_eq_some h (fun p => rfl)
                exact EndsIn.trans_eq [c, e] rfl (ih t2 a r ha)
              · rw [if_neg k1] at h
                by_cases k2 : e = bslash
                · rw [if_pos k2] at h
                  obtain ⟨a, ha⟩ := map_pair_eq_some h (fun p => rfl)
                  exact EndsIn.trans_eq [c, e] rfl (ih t2 a r ha)
                · rw [if_neg k2] at h
                  by_cases k3 : e = '/'
                  · rw [if_pos k3] at h
                    obtain ⟨a, ha⟩ := map_pair_eq_some h (fun p => rfl)
                    exact EndsIn.trans_eq [c, e] rfl (ih t2 a r ha)
                  · rw [if_neg k3] at h
                    by_cases k4 : e = 'b'
                    · rw [if_pos k4] at h
                      obtain ⟨a, ha⟩ := map_pair_eq_some h (fun p => rfl)
                      exact EndsIn.trans_eq [c, e] rfl (ih t2 a r ha)
                    · rw [if_neg k4] at h
                      by_cases k5 : e = 'f'
                      · rw [if_pos k5] at h
                        obtain ⟨a, ha⟩ := map_pair_eq_some h (fun p => rfl)
                        exact EndsIn.trans_eq [c, e] rfl (ih t2 a r ha)
                      · rw [if_neg k5] at h
                        by_cases k6 : e = 'n'
                        · rw [if_pos k6] at h
                          obtain ⟨a, ha⟩ := map_pair_eq_some h (fun p => rfl)
                          exact EndsIn.trans_eq [c, e] rfl (ih t2 a r ha)
                        · rw [if_neg k6] at h
                          by_cases k7 : e = 'r'
                          · rw [if_pos k7] at h
                            obtain ⟨a, ha⟩ := map_pair_eq_some h (fun p => rfl)
                            exact EndsIn.trans_eq [c, e] rfl (ih t2 a r ha)
                          · rw [if_neg k7] at h
                            by_cases k8 : e = 't'
                            · rw [if_pos k8] at h
                              obtain ⟨a, ha⟩ := map_pair_eq_some h (fun p => rfl)
                              exact EndsIn.trans_eq [c, e] rfl (ih t2 a r ha)
                            · rw [if_neg k8] at h
                              by_cases k9 : e = 'u'
                              · rw [if_pos k9] at h
                                split at h
                                · exact absurd h (by simp)
                                · rename_i u1 t3 hph
                                  obtain ⟨a4, b4, c4, d4, ht2⟩ := phex4_shape t2 u1 t3 hph
                                  by_cases hs1 : (0xD800 ≤ u1 && u1 ≤ 0xDBFF) = true
                                  · rw [if_pos hs1] at h
                                    split at h
                                    · rename_i b1 c2 t4
                                      by_cases hbu : (b1 = bslash && c2 = 'u') = true
                                      · rw [if_pos hbu] at h
                                        split at h
                                        · rename_i u2 t5 hph2
                                          obtain ⟨a5, b5, c5, d5, ht4⟩ := phex4_shape t4 u2 t5 hph2
                                          by_cases hs2 : (0xDC00 ≤ u2 && u2 ≤ 0xDFFF) = true
                                          · rw [if_pos hs2] at h
                                            obtain ⟨a, ha⟩ := map_pair_eq_some h (fun p => rfl)
                                            refine EndsIn.trans_eq
                                              [c, e, a4, b4, c4, d4, b1, c2, a5, b5, c5, d5] ?_
                                              (ih _ a r ha)
                                            rw [ht2, ht4]; rfl
                                          · rw [if_neg hs2] at h
                                            obtain ⟨a, ha⟩ := map_pair_eq_some h (fun p => rfl)
                                            refine EndsIn.trans_eq [c, e, a4, b4, c4, d4] ?_
                                              (ih _ a r ha)
                                            rw [ht2]; rfl
                                        · obtain ⟨a, ha⟩ := map_pair_eq_some h (fun p => rfl)
                                          refine EndsIn.trans_eq [c, e, a4, b4, c4, d4] ?_
                                            (ih _ a r ha)
                                          rw [ht2]; rfl
                                      · rw [if_neg hbu] at h
                                        obtain ⟨a, ha⟩ := map_pair_eq_some h (fun p => rfl)
                                        refine EndsIn.trans_eq [c, e, a4, b4, c4, d4] ?_
                                          (ih _ a r ha)
                                        rw [ht2]; rfl
                                    · obtain ⟨a, ha⟩ := map_pair_eq_some h (fun p => rfl)
                                      refine EndsIn.trans_eq [c, e, a4, b4, c4, d4] ?_
                                        (ih _ a r ha)
                                      rw [ht2]; rfl
                                  · rw [if_neg hs1] at h
                                    obtain ⟨a, ha⟩ := map_pair_eq_some h (fun p => rfl)
                                    refine EndsIn.trans_eq [c, e, a4, b4, c4, d4] ?_ (ih _ a r ha)
                                    rw [ht2]; rfl
                              · rw [if_neg k9] at h
                                exact absurd h (by simp)
          · rw [if_neg h3] at h
            obtain ⟨a, ha⟩ := map_pair_eq_some h (fun p => rfl)
            exact EndsIn.trans_eq [c] rfl (ih t a r ha)

/-- First characters a JSON value can start with. -/
def starterB (c : Char) : Bool :=
  c = quoteC || c = braceL || c = brackL || c = 't' || c = 'f' || c = 'n' ||
  c = 'N' || c = 'I' || c = '-' || c.isDigit

/-- Last characters a JSON value can end with: closing quote, closing
brace or bracket, the final letters of `true`/`false` (`e`), `null` (`l`),
`NaN` (`N`), `Infinity` (`y`), or a digit. -/
def enderB (c : Char) : Bool :=
  c = quoteC || c = braceR || c = brackR || c = 'e' || c = 'l' || c = 'N' ||
  c = 'y' || c.isDigit

/-- Splitting a string at its whitespace prefix. -/
theorem skipWs_decomp (t : List Char) : t = t.takeWhile jsonWsB ++ skipWs t :=
  (List.takeWhile_append_dropWhile jsonWsB t).symm

/-- A successful value parse starts at one of the value-starting
characters. -/
theorem pv_starter (f : Nat) (s : List Char) (v : Json) (r : List Char)
    (h : pv f s = some (v, r)) : ∃ c cs, s = c :: cs ∧ starterB c = true := by
  cases f with
  | zero => exact absurd h (by simp [pv])
  | succ f =>
    cases s with
    | nil => exact absurd h (by simp [pv])
    | cons c cs =>
      refine ⟨c, cs, rfl, ?_⟩
      by_contra hb
      rw [Bool.not_eq_true, starterB] at hb
      simp only [Bool.or_eq_false_iff, decide_eq_false_iff_not] at hb
      obtain ⟨⟨⟨⟨⟨⟨⟨⟨⟨n1, n2⟩, n3⟩, n4⟩, n5⟩, n6⟩, n7⟩, n8⟩, n9⟩, n10⟩ := hb
      simp only [pv, if_neg n1, if_neg n2, if_neg n3, if_neg n4, if_neg n5, if_neg n6,
        if_neg n7, if_neg n8, if_neg n9] at h
      rw [n10] at h
      simp at h

/-- A successful parse of a value, of object members, or of array elements
consumed a nonempty prefix; its last character is an `enderB` character
(for members the closing brace, for elements the closing bracket). -/
theorem ends_mutual : ∀ f : Nat,
    (∀ s v r, pv f s = some (v, r) → ∃ d, enderB d = true ∧ EndsIn s r d) ∧
    (∀ s kvs r, pmembers f s = some (kvs, r) → EndsIn s r braceR) ∧
    (∀ s es r, pelems f s = some (es, r) → EndsIn s r brackR) := by
  intro f
  induction f with
  | zero =>
    refine ⟨?_, ?_, ?_⟩ <;> intro s a r h <;> exact absurd h (by simp [pv, pmembers, pelems])
  | succ f ih =>
    obtain ⟨ihv, ihm, ihe⟩ := ih
    refine ⟨?_, ?_, ?_⟩
    · intro s v r h
      cases s with
      | nil => exact absurd h (by simp [pv])
      | cons c t =>
        simp only [pv] at h
        by_cases h1 : c = quoteC
        · rw [if_pos h1] at h
          obtain ⟨a, ha⟩ := map_pair_eq_some h (fun p => rfl)
          exact ⟨quoteC, by decide, EndsIn.trans_eq [c] rfl (pstr_endsIn _ t a r ha)⟩
        · rw [if_neg h1] at h
          by_cases h2 : c = braceL
          · rw [if_pos h2] at h
            split at h
            · rename_i d r0 hsw
              by_cases hd : d = braceR
              · rw [if_pos hd] at h
                simp only [Option.some.injEq, Prod.mk.injEq] at h
                refine ⟨braceR, by decide, ?_⟩
                refine EndsIn.trans_eq (c :: t.takeWhile jsonWsB) ?_ (EndsIn.base braceR r)
                rw [List.cons_append]
                congr 1
                rw [← h.2, ← hd, ← hsw]
                exact skipWs_decomp t
              · rw [if_neg hd] at h
                obtain ⟨a, ha⟩ := map_pair_eq_some h (fun p => rfl)
                refine ⟨braceR, by decide, ?_⟩
                refine EndsIn.trans_eq (c :: t.takeWhile jsonWsB) ?_ (ihm _ _ _ ha)
                rw [List.cons_append]
                congr 1
                exact skipWs_decomp t
            · exact absurd h (by simp)
          · rw [if_neg h2] at h
            by_cases h3 : c = brackL
            · rw [if_pos h3] at h
              split at h
              · rename_i d r0 hsw
                by_cases hd : d = brackR
                · rw [if_pos hd] at h
                  simp only [Option.some.injEq, Prod.mk.injEq] at h
                  refine ⟨brackR, by decide, ?_⟩
                  refine EndsIn.trans_eq (c :: t.takeWhile jsonWsB) ?_ (EndsIn.base brackR r)
                  rw [List.cons_append]
                  congr 1
                  rw [← h.2, ← hd, ← hsw]
                  exact skipWs_decomp t
                · rw [if_neg hd] at h
                  obtain ⟨a, ha⟩ := map_pair_eq_some h (fun p => rfl)
                  refine ⟨brackR, by decide, ?_⟩
                  refine EndsIn.trans_eq (c :: t.takeWhile jsonWsB) ?_ (ihe _ _ _ ha)
                  rw [List.cons_append]
                  congr 1
                  exact skipWs_decomp t
              · exact absurd h (by simp)
            · rw [if_neg h3] at h
              by_cases h4 : c = 't'
              · rw [if_pos h4] at h
                by_cases hpre : ['r', 'u', 'e'].isPrefixOf t = true
                · rw [if_pos hpre] at h
                  simp only [Option.some.injEq, Prod.mk.injEq] at h
                  obtain ⟨w, hw⟩ := List.isPrefixOf_iff_prefix.mp hpre
                  have hw2 : t = 'r' :: 'u' :: 'e' :: w := hw.symm
                  refine ⟨'e', by decide, [c, 'r', 'u', 'e'], ?_, by simp, by simp⟩
                  rw [← h.2, hw2]
                  rfl
                · rw [if_neg hpre] at h
                  exact absurd h (by simp)
              · rw [if_neg h4] at h
                by_cases h5 : c = 'f'
                · rw [if_pos h5] at h
                  by_cases hpre : ['a', 'l', 's', 'e'].isPrefixOf t = true
                  · rw [if_pos hpre] at h
                    simp only [Option.some.injEq, Prod.mk.injEq] at h
                    obtain ⟨w, hw⟩ := List.isPrefixOf_iff_prefix.mp hpre
                    have hw2 : t = 'a' :: 'l' :: 's' :: 'e' :: w := hw.symm
                    refine ⟨'e', by decide, [c, 'a', 'l', 's', 'e'], ?_, by simp, by simp⟩
                    rw [← h.2, hw2]
                    rfl
                  · rw [if_neg hpre] at h
                    exact absurd h (by simp)
                · rw [if_neg h5] at h
                  by_cases h6 : c = 'n'
                  · rw [if_pos h6] at h
                    by_cases hpre : ['u', 'l', 'l'].isPrefixOf t = true
                    · rw [if_pos hpre] at h
                      simp only [Option.some.injEq, Prod.mk.injEq] at h
                      obtain ⟨w, hw⟩ := List.isPrefixOf_iff_prefix.mp hpre
                      have hw2 : t = 'u' :: 'l' :: 'l' :: w := hw.symm
                      refine ⟨'l', by decide, [c, 'u', 'l', 'l'], ?_, by simp, by simp⟩
                      rw [← h.2, hw2]
                      rfl
                    · rw [if_neg hpre] at h
                      exact absurd h (by simp)
                  · rw [if_neg h6] at h
                    by_cases h7 : c = 'N'
                    · rw [if_pos h7] at h
                      by_cases hpre : ['a', 'N'].isPrefixOf t = true
                      · rw [if_pos hpre] at h
                        simp only [Option.some.injEq, Prod.mk.injEq] at h
                        obtain ⟨w, hw⟩ := List.isPrefixOf_iff_prefix.mp hpre
                        have hw2 : t = 'a' :: 'N' :: w := hw.symm
                        refine ⟨'N', by decide, [c, 'a', 'N'], ?_, by simp, by simp⟩
                        rw [← h.2, hw2]
                        rfl
                      · rw [if_neg hpre] at h
                        exact absurd h (by simp)
                    · rw [if_neg h7] at h
                      by_cases h8 : c = 'I'
                      · rw [if_pos h8] at h
                        by_cases hpre : ['n', 'f', 'i', 'n', 'i', 't', 'y'].isPrefixOf t = true
                        · rw [if_pos hpre] at h
                          simp only [Option.some.injEq, Prod.mk.injEq] at h
                          obtain ⟨w, hw⟩ := List.isPrefixOf_iff_prefix.mp hpre
                          have hw2 : t = 'n' :: 'f' :: 'i' :: 'n' :: 'i' :: 't' :: 'y' :: w := hw.symm
                          refine ⟨'y', by decide, [c, 'n', 'f', 'i', 'n', 'i', 't', 'y'], ?_,
                            by simp, by simp⟩
                          rw [← h.2, hw2]
                          rfl
                        · rw [if_neg hpre] at h
                          exact absurd h (by simp)
                      · rw [if_neg h8] at h
                        by_cases h9 : c = '-'
                        · rw [if_pos h9] at h
                          by_cases hpre :
                              ['I', 'n', 'f', 'i', 'n', 'i', 't', 'y'].isPrefixOf t = true
                          · rw [if_pos hpre] at h
                            simp only [Option.some.injEq, Prod.mk.injEq] at h
                            obtain ⟨w, hw⟩ := List.isPrefixOf_iff_prefix.mp hpre
                            have hw2 :
                                t = 'I' :: 'n' :: 'f' :: 'i' :: 'n' :: 'i' :: 't' :: 'y' :: w :=
                              hw.symm
                            refine ⟨'y', by decide,
                              [c, 'I', 'n', 'f', 'i', 'n', 'i', 't', 'y'], ?_, by simp, by simp⟩
                            rw [← h.2, hw2]
                            rfl
                          · rw [if_neg hpre] at h
                            obtain ⟨d, hdig, hEnds⟩ := pnum_endsIn _ _ _ h
                            exact ⟨d, by simp [enderB, hdig], hEnds⟩
                        · rw [if_neg h9] at h
                          by_cases h10 : c.isDigit = true
                          · rw [if_pos h10] at h
                            obtain ⟨d, hdig, hEnds⟩ := pnum_endsIn _ _ _ h
                            exact ⟨d, by simp [enderB, hdig], hEnds⟩
                          · rw [if_neg h10] at h
                            exact absurd h (by simp)
    · intro s kvs r h
      cases s with
      | nil => exact absurd h (by simp [pmembers])
      | cons c t =>
        simp only [pmembers] at h
        by_cases h1 : c = quoteC
        · rw [if_pos h1] at h
          split at h
          · exact absurd h (by simp)
          · rename_i key r1 hps
            obtain ⟨C1, htC1, hC1ne, _⟩ := pstr_endsIn _ t key r1 hps
            split at h
            · rename_i d r2 hsw1
              by_cases hcol : d = ':'
              · rw [if_pos hcol] at h
                split at h
                · exact absurd h (by simp)
                · rename_i v r3 hpv
                  obtain ⟨dv, _, C2, hC2, hC2ne, _⟩ := ihv _ _ _ hpv
                  have ht : t = C1 ++ (r1.takeWhile jsonWsB ++ (d :: (r2.takeWhile jsonWsB ++
                      (C2 ++ (r3.takeWhile jsonWsB ++ skipWs r3))))) := by
                    calc t = C1 ++ r1 := htC1
                      _ = C1 ++ (r1.takeWhile jsonWsB ++ skipWs r1) := by
                          congr 1; exact skipWs_decomp r1
                      _ = C1 ++ (r1.takeWhile jsonWsB ++ (d :: r2)) := by rw [hsw1]
                      _ = C1 ++ (r1.takeWhile jsonWsB ++ (d :: (r2.takeWhile jsonWsB ++
                            skipWs r2))) := by rw [← skipWs_decomp r2]
                      _ = C1 ++ (r1.takeWhile jsonWsB ++ (d :: (r2.takeWhile jsonWsB ++
                            (C2 ++ r3)))) := by rw [hC2]
                      _ = _ := by rw [← skipWs_decomp r3]
                  split at h
                  · rename_i e r4 hsw2
                    by_cases hcomma : e = ','
                    · rw [if_pos hcomma] at h
                      obtain ⟨a, ha⟩ := map_pair_eq_some h (fun p => rfl)
                      have hr4 : EndsIn r4 r braceR :=
                        EndsIn.trans_eq (r4.takeWhile jsonWsB) (skipWs_decomp r4) (ihm _ _ _ ha)
                      refine EndsIn.trans_eq (c :: (C1 ++ (r1.takeWhile jsonWsB ++ (d ::
                        (r2.takeWhile jsonWsB ++ (C2 ++ (r3.takeWhile jsonWsB ++ [e])))))))
                        ?_ hr4
                      rw [ht, hsw2]
                      simp [List.append_assoc]
                    · rw [if_neg hcomma] at h
                      by_cases hbr : e = braceR
                      · rw [if_pos hbr] at h
                        simp only [Option.some.injEq, Prod.mk.injEq] at h
                        obtain ⟨hkv, hr⟩ := h
                        subst hbr
                        subst hr
                        refine EndsIn.trans_eq (c :: (C1 ++ (r1.takeWhile jsonWsB ++ (d ::
                          (r2.takeWhile jsonWsB ++ (C2 ++ r3.takeWhile jsonWsB))))))
                          ?_ (EndsIn.base braceR r4)
                        rw [ht, hsw2]
                        simp [List.append_assoc]
                      · rw [if_neg hbr] at h
                        exact absurd h (by simp)
                  · exact absurd h (by simp)
              · rw [if_neg hcol] at h
                exact absurd h (by simp)
            · exact absurd h (by simp)
        · rw [if_neg h1] at h
          exact absurd h (by simp)
    · intro s es r h
      cases s with
      | nil =>
        rw [pelems] at h
        cases hpv : pv f [] with
        | none => rw [hpv] at h; exact absurd h (by simp)
        | some q =>
          obtain ⟨c0, cs0, hnil, _⟩ := pv_starter _ _ _ _ hpv
          exact absurd hnil (by simp)
      | cons c t =>
        simp only [pelems] at h
        split at h
        · exact absurd h (by simp)
        · rename_i v r1 hpv
          obtain ⟨dv, _, C0, hC0, hC0ne, _⟩ := ihv _ _ _ hpv
          split at h
          · rename_i e r2 hsw
            by_cases hcomma : e = ','
            · rw [if_pos hcomma] at h
              obtain ⟨a, ha⟩ := map_pair_eq_some h (fun p => rfl)
              have hr2 : EndsIn r2 r brackR :=
                EndsIn.trans_eq (r2.takeWhile jsonWsB) (skipWs_decomp r2) (ihe _ _ _ ha)
              refine EndsIn.trans_eq (C0 ++ (r1.takeWhile jsonWsB ++ [e])) ?_ hr2
              calc c :: t = C0 ++ r1 := hC0
                _ = C0 ++ (r1.takeWhile jsonWsB ++ skipWs r1) := by
                    congr 1; exact skipWs_decomp r1
                _ = C0 ++ (r1.takeWhile jsonWsB ++ (e :: r2)) := by rw [hsw]
                _ = _ := by simp [List.append_assoc]
            · rw [if_neg hcomma] at h
              by_cases hbk : e = brackR
              · rw [if_pos hbk] at h
                simp only [Option.some.injEq, Prod.mk.injEq] at h
                obtain ⟨hes, hr⟩ := h
                subst hbk
                subst hr
                refine EndsIn.trans_eq (C0 ++ r1.takeWhile jsonWsB)
                  ?_ (EndsIn.base brackR r2)
                calc c :: t = C0 ++ r1 := hC0
                  _ = C0 ++ (r1.takeWhile jsonWsB ++ skipWs r1) := by
                      congr 1; exact skipWs_decomp r1
                  _ = C0 ++ (r1.takeWhile jsonWsB ++ (brackR :: r2)) := by rw [hsw]
                  _ = _ := by simp [List.append_assoc]
              · rw [if_neg hbk] at h
                exact absurd h (by simp)
          · exact absurd h (by simp)

/-- A nonempty exactly-parsed document starts with a value-starting
character and ends with a value-ending character. -/
theorem parseExact_bounds (s : List Char) (v : Json) (h : parseExact s = some v) :
    (∃ c cs, s = c :: cs ∧ starterB c = true) ∧
    (∃ d, enderB d = true ∧ s.getLast? = some d) := by
  rw [parseExact] at h
  split at h
  · rename_i v0 r0 hpv
    by_cases hr : r0 = []
    · subst hr
      refine ⟨pv_starter _ _ _ _ hpv, ?_⟩
      obtain ⟨d, hd, C, hC, hCne, hCl⟩ := (ends_mutual _).1 _ _ _ hpv
      refine ⟨d, hd, ?_⟩
      rw [hC, List.append_nil]
      exact hCl
    · rw [if_neg hr] at h
      exact absurd h (by simp)
  · exact absurd h (by simp)

/-- JSON whitespace is `str.strip` whitespace. -/
theorem pyWs_of_jsonWs {c : Char} (h : jsonWsB c = true) : pyWsB c = true := by
  simp [pyWsB, h]

/-- A value-starting character is not `str.strip` whitespace. -/
theorem starter_not_pyWs (c : Char) (h : starterB c = true) : pyWsB c = false := by
  by_contra hb
  rw [Bool.not_eq_false, pyWsB, jsonWsB] at hb
  simp only [Bool.or_eq_true, decide_eq_true_eq] at hb
  rcases hb with (((((hb | hb) | hb) | hb) | hb) | hb) <;> subst hb <;>
    exact absurd h (by decide)

/-- A value-ending character is not `str.strip` whitespace. -/
theorem ender_not_pyWs (c : Char) (h : enderB c = true) : pyWsB c = false := by
  by_contra hb
  rw [Bool.not_eq_false, pyWsB, jsonWsB] at hb
  simp only [Bool.or_eq_true, decide_eq_true_eq] at hb
  rcases hb with (((((hb | hb) | hb) | hb) | hb) | hb) <;> subst hb <;>
    exact absurd h (by decide)

/-- Characters whose deletion by the cleanup patterns could touch the end
of a document: the single quote, the backtick, and the letters of `json`
after the backticks. -/
def badB (c : Char) : Bool :=
  c = apos || c = btick || c = 'j' || c = 's' || c = 'o' || c = 'n'

/-- A value-ending character is not a cleanup-pattern character. -/
theorem ender_not_bad (c : Char) (h : enderB c = true) : badB c = false := by
  by_contra hb
  rw [Bool.not_eq_false, badB] at hb
  simp only [Bool.or_eq_true, decide_eq_true_eq] at hb
  rcases hb with (((((hb | hb) | hb) | hb) | hb) | hb) <;> subst hb <;>
    exact absurd h (by decide)

/-- JSON whitespace is not a cleanup-pattern character. -/
theorem jsonWs_not_bad (c : Char) (h : jsonWsB c = true) : badB c = false := by
  rw [jsonWsB] at h
  simp only [Bool.or_eq_true, decide_eq_true_eq] at h
  rcases h with ((h | h) | h) | h <;> subst h <;> decide

/-- Bridge from the pattern-character test to pattern membership. -/
theorem not_mem_pats_of_not_bad (x : Char) (h : badB x = false) :
    x ∉ quote3 ∧ x ∉ fenceJson ∧ x ∉ btick3 := by
  rw [badB] at h
  simp only [Bool.or_eq_false_iff, decide_eq_false_iff_not] at h
  obtain ⟨⟨⟨⟨⟨h1, h2⟩, h3⟩, h4⟩, h5⟩, h6⟩ := h
  refine ⟨?_, ?_, ?_⟩ <;> intro hm <;>
    simp only [quote3, fenceJson, btick3, List.mem_cons, List.not_mem_nil, or_false] at hm <;>
    tauto

/-- Dropping over a block of characters all satisfying the predicate. -/
theorem dropWhile_append_of_all (p : Char → Bool) (A : List Char)
    (hA : ∀ a ∈ A, p a = true) (X : List Char) :
    (A ++ X).dropWhile p = X.dropWhile p := by
  induction A with
  | nil => rfl
  | cons a A ih =>
    rw [List.cons_append, List.dropWhile_cons, if_pos (hA a (List.mem_cons_self a A))]
    exact ih (fun x hx => hA x (List.mem_cons_of_mem a hx))

/-- Dropping stops at a character failing the predicate. -/
theorem dropWhile_cons_neg (p : Char → Bool) (k : Char) (l : List Char)
    (hk : p k = false) : (k :: l).dropWhile p = k :: l := by
  rw [List.dropWhile_cons, if_neg (by simp [hk])]

/-- Decomposition of a string around its whitespace-trimmed core. -/
theorem trim_decomp (s : List Char) :
    ∃ A B, s = A ++ (jsonTrim s ++ B) ∧ (∀ a ∈ A, jsonWsB a = true) ∧
      (∀ b ∈ B, jsonWsB b = true) := by
  refine ⟨s.takeWhile jsonWsB, ((s.dropWhile jsonWsB).reverse.takeWhile jsonWsB).reverse,
    ?_, ?_, ?_⟩
  · have hM : s.dropWhile jsonWsB =
        ((s.dropWhile jsonWsB).reverse.dropWhile jsonWsB).reverse ++
        ((s.dropWhile jsonWsB).reverse.takeWhile jsonWsB).reverse := by
      rw [← List.reverse_append, List.takeWhile_append_dropWhile, List.reverse_reverse]
    rw [jsonTrim, ← hM, List.takeWhile_append_dropWhile]
  · exact fun a ha => List.mem_takeWhile_imp ha
  · intro b hb
    rw [List.mem_reverse] at hb
    exact List.mem_takeWhile_imp hb

/-- When the trimmed core is nonempty and bounded by non-`str.strip`
whitespace, `str.strip` and JSON-whitespace trimming agree. -/
theorem pyStrip_eq_jsonTrim (s : List Char) (hne : jsonTrim s ≠ [])
    (hhead : ∀ c, (jsonTrim s).head? = some c → pyWsB c = false)
    (hlast : ∀ c, (jsonTrim s).getLast? = some c → pyWsB c = false) :
    pyStrip s = jsonTrim s := by
  obtain ⟨A, B, hs, hA, hB⟩ := trim_decomp s
  obtain ⟨k, K', hK⟩ : ∃ k K', jsonTrim s = k :: K' := by
    cases hK : jsonTrim s with
    | nil => exact absurd hK hne
    | cons k K' => exact ⟨k, K', rfl⟩
  obtain ⟨d, hd⟩ := exists_getLast?_ne_nil hne
  have hstep1 : s.dropWhile pyWsB = jsonTrim s ++ B := by
    conv_lhs => rw [hs]
    rw [dropWhile_append_of_all pyWsB A (fun a ha => pyWs_of_jsonWs (hA a ha))]
    rw [hK, List.cons_append]
    exact dropWhile_cons_neg pyWsB k (K' ++ B) (hhead k (by rw [hK]; rfl))
  have hrevK : ∃ e RK, (jsonTrim s).reverse = e :: RK ∧ pyWsB e = false := by
    cases hrev : (jsonTrim s).reverse with
    | nil =>
      exfalso
      have := congrArg List.reverse hrev
      rw [List.reverse_reverse] at this
      exact hne (by simpa using this)
    | cons e RK =>
      refine ⟨e, RK, rfl, ?_⟩
      apply hlast
      rw [← List.head?_reverse, hrev]
      rfl
  obtain ⟨e, RK, hrev, he⟩ := hrevK
  rw [pyStrip, hstep1, List.reverse_append]
  rw [dropWhile_append_of_all pyWsB B.reverse
    (fun b hb => pyWs_of_jsonWs (hB b (List.mem_reverse.mp hb)))]
  rw [hrev, dropWhile_cons_neg pyWsB e RK he, ← hrev, List.reverse_reverse]

/-- Trimming is the identity on a string already bounded by
non-whitespace. -/
theorem jsonTrim_eq_self (s : List Char)
    (hhead : ∀ c, s.head? = some c → jsonWsB c = false)
    (hlast : ∀ c, s.getLast? = some c → jsonWsB c = false) :
    jsonTrim s = s := by
  cases s with
  | nil => rfl
  | cons k t =>
    rw [jsonTrim, dropWhile_cons_neg jsonWsB k t (hhead k rfl)]
    obtain ⟨e, RK, hrev, he⟩ : ∃ e RK, (k :: t).reverse = e :: RK ∧ jsonWsB e = false := by
      cases hrev : (k :: t).reverse with
      | nil =>
        exfalso
        have := congrArg List.reverse hrev
        rw [List.reverse_reverse] at this
        simp at this
      | cons e RK =>
        refine ⟨e, RK, rfl, ?_⟩
        apply hlast
        rw [← List.head?_reverse, hrev]
        rfl
    rw [hrev, dropWhile_cons_neg jsonWsB e RK he, ← hrev, List.reverse_reverse]

/-- When neither cleanup pattern occurs in the response, the cleanup is
just `str.strip`. -/
theorem cleanResponse_of_no_pats (raw : List Char) (h1 : hasSub quote3 raw = false)
    (h2 : hasSub btick3 raw = false) : cleanResponse raw = pyStrip raw := by
  have h3 : hasSub fenceJson raw = false := by
    by_contra hb
    rw [Bool.not_eq_false] at hb
    have := hasSub_of_prefix btick3 fenceJson (by decide) raw hb
    rw [h2] at this
    exact Bool.noConfusion this
  rw [cleanResponse, replDel_of_not_hasSub _ _ h1, replDel_of_not_hasSub _ _ h3,
    replDel_of_not_hasSub _ _ h2]

/-- A nonempty trimmed core exists behind any successful `json.loads`. -/
theorem jsonTrim_ne_nil_of_parse (s : List Char) (v : Json) (h : jsonParse s = some v) :
    jsonTrim s ≠ [] := by
  rw [jsonParse] at h
  intro h0
  rw [h0] at h
  have : parseExact ([] : List Char) = none := rfl
  rw [this] at h
  exact Option.noConfusion h

/-- Main lemma for the idempotence claim: on a document without cleanup
patterns, the cleanup-and-parse stage returns the native decode. -/
theorem pipelineParse_of_valid (D : List Char) (v : Json) (h : jsonParse D = some v)
    (h1 : hasSub quote3 D = false) (h2 : hasSub btick3 D = false) :
    pipelineParse D = some v := by
  rw [pipelineParse, cleanResponse_of_no_pats D h1 h2]
  have hK : parseExact (jsonTrim D) = some v := h
  obtain ⟨⟨c, cs, hcons, hst⟩, d, hend, hlastK⟩ := parseExact_bounds _ _ hK
  have hne : jsonTrim D ≠ [] := jsonTrim_ne_nil_of_parse D v h
  have hps : pyStrip D = jsonTrim D := by
    apply pyStrip_eq_jsonTrim D hne
    · intro c0 hc0
      rw [hcons] at hc0
      simp only [List.head?_cons, Option.some.injEq] at hc0
      rw [← hc0]
      exact starter_not_pyWs c hst
    · intro d0 hd0
      rw [hlastK] at hd0
      simp only [Option.some.injEq] at hd0
      rw [← hd0]
      exact ender_not_pyWs d hend
  show jsonParse (pyStrip D) = some v
  rw [jsonParse, hps, jsonTrim_eq_self (jsonTrim D) ?_ ?_]
  · exact hK
  · intro c0 hc0
    rw [hcons] at hc0
    simp only [List.head?_cons, Option.some.injEq] at hc0
    rw [← hc0]
    by_contra hb
    rw [Bool.not_eq_false] at hb
    have := pyWs_of_jsonWs hb
    rw [starter_not_pyWs c hst] at this
    exact Bool.noConfusion this
  · intro d0 hd0
    rw [hlastK] at hd0
    simp only [Option.some.injEq] at hd0
    rw [← hd0]
    by_contra hb
    rw [Bool.not_eq_false] at hb
    have := pyWs_of_jsonWs hb
    rw [ender_not_pyWs d hend] at this
    exact Bool.noConfusion this

/-- The last character of a successfully decoded document is never a
cleanup-pattern character. -/
theorem valid_getLast_not_bad (D : List Char) (v : Json) (h : jsonParse D = some v) :
    ∀ x, D.getLast? = some x → badB x = false := by
  intro x hx
  have hK : parseExact (jsonTrim D) = some v := h
  obtain ⟨_, d, hend, hlastK⟩ := parseExact_bounds _ _ hK
  have hne : jsonTrim D ≠ [] := jsonTrim_ne_nil_of_parse D v h
  obtain ⟨A, B, hs, hA, hB⟩ := trim_decomp D
  cases hBnil : B with
  | nil =>
    rw [hBnil, List.append_nil] at hs
    rw [hs, List.getLast?_append_of_ne_nil _ hne, hlastK] at hx
    simp only [Option.some.injEq] at hx
    rw [← hx]
    exact ender_not_bad d hend
  | cons b0 B0 =>
    have hBne : B ≠ [] := by rw [hBnil]; simp
    have hx2 : B.getLast? = some x := by
      rw [hs, List.getLast?_append_of_ne_nil _ (by rw [hBnil]; simp : jsonTrim D ++ B ≠ []),
        List.getLast?_append_of_ne_nil _ hBne] at hx
      exact hx
    exact jsonWs_not_bad x (hB x (mem_of_getLast?_eq hx2))

/-- The fenced wrapping of a response: three backticks and a language tag
before, three backticks after. -/
def wrapFence (D : List Char) : List Char := fenceJson ++ (D ++ btick3)

/-- The cleanup erases a surrounding markdown fence completely: cleaning a
wrapped document gives exactly the cleanup of the document itself, for any
document whose last character is not a cleanup-pattern character. -/
theorem cleanResponse_wrap (D : List Char)
    (hlast : ∀ x, D.getLast? = some x → badB x = false) :
    cleanResponse (wrapFence D) = cleanResponse D := by
  rw [cleanResponse, cleanResponse, wrapFence]
  congr 1
  have e1 : replDel quote3 (fenceJson ++ (D ++ btick3)) =
      fenceJson ++ (replDel quote3 D ++ btick3) := by
    rw [replDel_block_append quote3 (by decide) fenceJson (by decide)]
    congr 1
    rw [replDel_append_of_no_overhang quote3 btick3 (by decide) (by decide),
      show replDel quote3 btick3 = btick3 from by decide]
  rw [e1]
  have e2 : replDel fenceJson (fenceJson ++ (replDel quote3 D ++ btick3)) =
      replDel fenceJson (replDel quote3 D) ++ btick3 := by
    rw [replDel_self_append fenceJson _ (by decide)]
    rw [replDel_append_of_no_overhang fenceJson btick3 (by decide) (by decide),
      show replDel fenceJson btick3 = btick3 from by decide]
  rw [e2]
  have hlast2 : ∀ x, (replDel fenceJson (replDel quote3 D)).getLast? = some x →
      x ∉ btick3 := by
    intro x hx
    cases hD : D.getLast? with
    | none =>
      rw [List.getLast?_eq_none_iff] at hD
      rw [hD, replDel_nil, replDel_nil] at hx
      simp at hx
    | some y =>
      obtain ⟨hq, hf, hbt⟩ := not_mem_pats_of_not_bad y (hlast y hD)
      have hy1 : (replDel quote3 D).getLast? = some y :=
        replDel_getLast quote3 (by decide) D y hD hq
      have hy2 : (replDel fenceJson (replDel quote3 D)).getLast? = some y :=
        replDel_getLast fenceJson (by decide) _ y hy1 hf
      rw [hx] at hy2
      simp only [Option.some.injEq] at hy2
      rw [hy2]
      exact hbt
  rw [replDel_append_of_getLast btick3 btick3 (by decide) _ hlast2]
  rw [show replDel btick3 btick3 = [] from by decide, List.append_nil]

/-! Claim theorems. -/

/-- Observer used to separate two concrete parsed objects. -/
def jstrLen (j : Json) : Nat :=
  match j with
  | Json.jobj ((_, Json.jstr l) :: _) => l.length
  | _ => 0

/-- Observer used to separate two concrete arrays. -/
def jarrLen (j : Json) : Nat :=
  match j with
  | Json.jarr l => l.length
  | _ => 0

/-- A valid JSON document whose string content contains three single
quotes (code point 39). -/
def c1cexInput : List Char := "\x7b\"a\": \"x".data ++ quote3 ++ "y\"\x7d".data

/-- Claim C1 counterexample: the document
`\x7b"a": "x\x27\x27\x27y"\x7d` is valid JSON, but the extraction
pipeline deletes the three single quotes inside the string literal, so the
pipeline result differs from the native decode of the document. -/
theorem c1_pipeline_counterexample :
    jsonParse c1cexInput = some (Json.jobj [([97], Json.jstr [120, 39, 39, 39, 121])]) ∧
    pipelineParse c1cexInput = some (Json.jobj [([97], Json.jstr [120, 121])]) ∧
    pipelineParse c1cexInput ≠ jsonParse c1cexInput := by
  refine ⟨rfl, rfl, ?_⟩
  intro h
  have h1 : (Json.jobj [([97], Json.jstr [120, 121])]) =
      (Json.jobj [([97], Json.jstr [120, 39, 39, 39, 121])]) := by
    have h2 := h
    rw [show pipelineParse c1cexInput = some (Json.jobj [([97], Json.jstr [120, 121])])
        from rfl,
      show jsonParse c1cexInput = some (Json.jobj [([97], Json.jstr [120, 39, 39, 39, 121])])
        from rfl] at h2
    exact Option.some.inj h2
  exact absurd (congrArg jstrLen h1) (by decide)

/-- Claim C1 (amended): for every valid JSON document that contains
neither the triple-single-quote pattern nor a triple-backtick, the
cleanup-and-parse stage of `generate_functional_tests` /
`generate_nfr_tests` returns a value equal to the native `json.loads`
decode of the document (the cleanup is a no-op up to whitespace
stripping). -/
theorem c1_pipeline_noop_on_clean_documents (D : List Char) (v : Json)
    (h : jsonParse D = some v) (h1 : hasSub quote3 D = false)
    (h2 : hasSub btick3 D = false) : pipelineParse D = some v :=
  pipelineParse_of_valid D v h h1 h2

/-- Witness input for claim C1: a plain valid document with surrounding
whitespace. -/
def c1WitIn : List Char := " \x7b\"functional\": [1, 2]\x7d ".data

/-- Claim C1 witness: the amended theorem applied at a concrete valid
document. -/
theorem c1_pipeline_noop_witness :
    jsonParse c1WitIn =
      some (Json.jobj [(strCodes "functional", Json.jarr [Json.jint 1, Json.jint 2])]) ∧
    pipelineParse c1WitIn =
      some (Json.jobj [(strCodes "functional", Json.jarr [Json.jint 1, Json.jint 2])]) :=
  ⟨rfl, c1_pipeline_noop_on_clean_documents c1WitIn _ rfl (by decide) (by decide)⟩

/-- A well-formed JSON array response. -/
def c2cexInput : List Char := "[1, 2, 3]".data

/-- Claim C2 counterexample: on a response that decodes to a top-level
list, `test_spec.get("functional", [])` raises `AttributeError`, which is
not caught (`except` catches only `json.JSONDecodeError`), so the recovery
step does propagate an exception for this input. -/
theorem c2_attributeerror_counterexample :
    pipelineParse c2cexInput = some (Json.jarr [Json.jint 1, Json.jint 2, Json.jint 3]) ∧
    genFunctionalFromRaw c2cexInput = Except.error PyErr.attributeError ∧
    genNfrFromRaw c2cexInput = Except.error PyErr.attributeError :=
  ⟨rfl, rfl, rfl⟩

/-- Claim C2 (amended): for every input string whose cleaned form fails to
decode as JSON, both parse steps return the empty list rather than
propagating an error; the never-raises guarantee holds for undecodable
input, but a decodable non-object response raises `AttributeError` (see
the counterexample). -/
theorem c2_decode_failure_degrades_to_empty (s : List Char)
    (h : pipelineParse s = none) :
    genFunctionalFromRaw s = Except.ok (Json.jarr []) ∧
    genNfrFromRaw s = Except.ok (Json.jarr []) := by
  constructor
  · rw [genFunctionalFromRaw, h]
  · rw [genNfrFromRaw, h]

/-- Witness input for claim C2: an undecodable response. -/
def c2WitIn : List Char := "the model returned no JSON at all".data

/-- Claim C2 witness: the amended theorem applied at a concrete
undecodable input. -/
theorem c2_decode_failure_witness :
    pipelineParse c2WitIn = none ∧
    genFunctionalFromRaw c2WitIn = Except.ok (Json.jarr []) :=
  ⟨rfl, (c2_decode_failure_degrades_to_empty c2WitIn rfl).1⟩

/-- A decodable response whose trimmed form has 19 characters. -/
def c3cexInput : List Char := "\x7b\"functional\":[42]\x7d".data

/-- Claim C3 counterexample: an input of trimmed length 19 (< 20) is not
rejected: the pipeline decodes it and returns its test list, so no
minimum-length short-circuit exists in the code. -/
theorem c3_short_input_counterexample :
    (pyStrip c3cexInput).length < 20 ∧
    genFunctionalFromRaw c3cexInput = Except.ok (Json.jarr [Json.jint 42]) ∧
    Json.jarr [Json.jint 42] ≠ Json.jarr [] := by
  refine ⟨by decide, rfl, ?_⟩
  intro h
  exact absurd (congrArg jarrLen h) (by decide)

/-- Claim C3 (amended): the extraction pipeline applies no minimum-length
short-circuit: an input whose trimmed form is shorter than 20 characters
is still cleaned and JSON-decoded, and a successful decode determines the
result exactly as for longer inputs. -/
theorem c3_short_inputs_still_decoded (s : List Char) (kvs : List (List Nat × Json))
    (l : List Json) (_hshort : (pyStrip s).length < 20)
    (hp : pipelineParse s = some (Json.jobj kvs))
    (hk : lookupKV kvs (strCodes "functional") = some (Json.jarr l)) :
    genFunctionalFromRaw s = Except.ok (Json.jarr l) := by
  simp only [genFunctionalFromRaw, hp, pyGet, hk, Option.getD_some]

/-- Claim C3 witness: the amended theorem applied at the concrete 19
character input. -/
theorem c3_short_inputs_witness :
    (pyStrip c3cexInput).length < 20 ∧
    genFunctionalFromRaw c3cexInput = Except.ok (Json.jarr [Json.jint 42]) :=
  ⟨by decide, c3_short_inputs_still_decoded c3cexInput
    [(strCodes "functional", Json.jarr [Json.jint 42])] [Json.jint 42]
    (by decide) rfl rfl⟩

/-- Claim C4: wrapping any valid JSON document in markdown code fences
(three backticks and `json` before, three backticks after) yields exactly
the same pipeline result as the unwrapped document: the cleanup erases the
fence completely and leaves the document itself unchanged. -/
theorem c4_fence_wrapped_equals_unwrapped (D : List Char) (v : Json)
    (h : jsonParse D = some v) :
    pipelineParse (wrapFence D) = pipelineParse D := by
  rw [pipelineParse, pipelineParse, cleanResponse_wrap D (valid_getLast_not_bad D v h)]

/-- Witness input for claim C4. -/
def c4WitIn : List Char := "\x7b\"functional\": [\x7b\"id\": \"FUNC_001\"\x7d]\x7d".data

/-- Claim C4 witness: the theorem applied at a concrete valid document,
with both sides computed. -/
theorem c4_fence_wrapped_witness :
    jsonParse c4WitIn = some (Json.jobj [(strCodes "functional",
      Json.jarr [Json.jobj [(strCodes "id", Json.jstr (strCodes "FUNC_001"))]])]) ∧
    pipelineParse (wrapFence c4WitIn) = pipelineParse c4WitIn :=
  ⟨rfl, c4_fence_wrapped_equals_unwrapped c4WitIn _ rfl⟩

/-- Claim C5: in `generate_all_tests`, failure of exactly one of the two
concurrently gathered generation branches never aborts the sibling: the
failed branch's key maps to the empty list while the other key holds the
sibling's generated list (page access having succeeded). -/
theorem c5_one_branch_failure_keeps_sibling (elems : List Json) (e : PyErr)
    (l : List Json) :
    generateAllTests (Except.ok elems) (Except.error e) (Except.ok (Json.jarr l)) =
      Json.jobj [(strCodes "functional_tests", Json.jarr []),
                 (strCodes "nfr_tests", Json.jarr l)] ∧
    generateAllTests (Except.ok elems) (Except.ok (Json.jarr l)) (Except.error e) =
      Json.jobj [(strCodes "functional_tests", Json.jarr l),
                 (strCodes "nfr_tests", Json.jarr [])] :=
  ⟨rfl, rfl⟩

/-- The balanced-with-braces-inside-string test input of the spec. -/
def c6Input : List Char := "\x7b\"a\": \"\x7bnot a brace\x7d\"\x7d".data

/-- Claim C6: the Balance Checker reports `\x7b"a": "\x7bnot a
brace\x7d"\x7d` balanced, and in general a scan step taken inside a
string literal never changes the delimiter stack, for any state and any
character. -/
theorem c6_balance_checker_string_aware :
    isBalanced c6Input = true ∧
    (∀ (st : BState) (c : Char) (st2 : BState), st.inString = true →
      scanStep st c = some st2 → st2.stack = st.stack) := by
  refine ⟨by decide, ?_⟩
  intro st c st2 hin hstep
  rw [scanStep, if_pos hin] at hstep
  split_ifs at hstep <;>
  · simp only [Option.some.injEq] at hstep
    rw [← hstep]

/-- Claim C6 witness: a closing brace scanned inside a string literal
leaves the stack unchanged. -/
theorem c6_balance_checker_witness :
    (⟨[braceL], true, false⟩ : BState).inString = true ∧
    scanStep ⟨[braceL], true, false⟩ braceR = some ⟨[braceL], true, false⟩ ∧
    (⟨[braceL], true, false⟩ : BState).stack = [braceL] :=
  ⟨rfl, by decide,
    (c6_balance_checker_string_aware.2 ⟨[braceL], true, false⟩ braceR
      ⟨[braceL], true, false⟩ rfl (by decide)).trans rfl⟩

/-- The truncated-array test input of the spec. -/
def c7Input : List Char := "\x7b\"a\": [1, 2".data

/-- Claim C7: the Structural Completer applied to `\x7b"a": [1, 2`
appends a closing bracket before the closing brace (each on its own line),
the result passes the Balance Checker, and it decodes to the object with
key `a` and value the array `[1, 2]`. -/
theorem c7_completer_on_truncated_array :
    completeJson c7Input = c7Input ++ [Char.ofNat 10, brackR, Char.ofNat 10, braceR] ∧
    isBalanced (completeJson c7Input) = true ∧
    jsonParse (completeJson c7Input) =
      some (Json.jobj [([97], Json.jarr [Json.jint 1, Json.jint 2])]) := by
  refine ⟨by decide, by decide, rfl⟩

/-- Claim C8: the cleanup-and-parse stage is deterministic: it is a pure
function of the response string — the embedding involves no randomness and
no external calls (the source lines are string operations and `json.loads`
only), so two runs on the same input give the same result. -/
theorem c8_pipeline_deterministic (s : List Char) (r1 r2 : Except PyErr Json)
    (h1 : genFunctionalFromRaw s = r1) (h2 : genFunctionalFromRaw s = r2) :
    r1 = r2 :=
  h1.symm.trans h2

/-- Input for the claim C8 witness. -/
def c8WitIn : List Char := "no json in this response".data

/-- Claim C8 witness: the theorem applied at a concrete input with both
runs computed. -/
theorem c8_pipeline_deterministic_witness :
    genFunctionalFromRaw c8WitIn = Except.ok (Json.jarr []) ∧
    (Except.ok (Json.jarr []) : Except PyErr Json) = Except.ok (Json.jarr []) :=
  ⟨rfl, c8_pipeline_deterministic c8WitIn _ _ rfl rfl⟩

/-- Claim C9: `generate_all_tests` returns, on every control path — page
access failure, branch exception, branch value of non-list type — a
dictionary with exactly the keys `functional_tests` and `nfr_tests`, each
mapped to a list. -/
theorem c9_all_tests_shape (pa : Except PyErr (List Json)) (fb nb : Except PyErr Json) :
    ∃ fl nl, generateAllTests pa fb nb =
      Json.jobj [(strCodes "functional_tests", Json.jarr fl),
                 (strCodes "nfr_tests", Json.jarr nl)] := by
  cases pa with
  | error e => exact ⟨[], [], rfl⟩
  | ok l => exact ⟨normalizeToList (branchValue fb), normalizeToList (branchValue nb), rfl⟩

/-- Claim C10: `sanitize_code` either returns its input unchanged or
raises `ValueError`; it raises exactly when some forbidden pattern
matches case-insensitively, and an `ok` result is always the unmodified
input. -/
theorem c10_sanitize_all_or_nothing (code : List Char) :
    (matchesAny code = true → sanitizeCode code = Except.error PyErr.valueError) ∧
    (matchesAny code = false → sanitizeCode code = Except.ok code) ∧
    (∀ s2, sanitizeCode code = Except.ok s2 → s2 = code) := by
  refine ⟨?_, ?_, ?_⟩
  · intro h
    rw [sanitizeCode, if_pos h]
  · intro h
    rw [sanitizeCode, if_neg (by simp [h])]
  · intro s2 h
    rw [sanitizeCode] at h
    by_cases hm : matchesAny code = true
    · rw [if_pos hm] at h
      exact absurd h (by simp)
    · rw [if_neg hm] at h
      exact (Except.ok.inj h).symm

/-- Forbidden code for the claim C10 witness. -/
def c10Bad : List Char := "import os; os.system(x)".data

/-- Clean code for the claim C10 witness. -/
def c10Good : List Char := "page.fill(sel, val)".data

/-- Claim C10 witness: the theorem applied at one matching and one
non-matching concrete input. -/
theorem c10_sanitize_witness :
    sanitizeCode c10Bad = Except.error PyErr.valueError ∧
    sanitizeCode c10Good = Except.ok c10Good :=
  ⟨(c10_sanitize_all_or_nothing c10Bad).1 (by decide),
    (c10_sanitize_all_or_nothing c10Good).2.1 (by decide)⟩

end PTA
